import Mathlib

/-
  Verification of the job-board crawler pipeline core.

  Shallow embedding of the Python sources:
    job_spy/agents/job_normalizer.py      (JobNormalizer, Job)
    job_spy/agents/job_evaluator.py       (CandidateProfile, Decision, JobEvaluator.evaluate)
    job_spy/agents/application_planner.py (ApplicationPlan, ApplicationPlanner.plan)
    job_spy/pipeline/states.py            (JobState)
    job_spy/pipeline/fsm.py               (JobStateMachine: add_jobs, _get_next_row,
                                           _update_job, step, run)
    job_spy/apply/*                       (collaborator stubs; modelled as oracle-driven
                                           call sites, see StepOracle below)

  Python strings are modelled over List Char restricted to the ASCII behaviour of
  str.lower / str.strip / str.split; SQLite rows are a List of records in rowid
  (insertion) order; JSON serialisation round-trips are modelled as the identity on
  the structured payloads.  hashlib.sha1 is an external library call and is modelled
  as an arbitrary function parameter h : String -> String applied to the identity
  string the source builds.
-/

namespace JobSpy

/-- ASCII lower-casing of one character, the behaviour of Python str.lower on
the ASCII range, written as an explicit table. -/
def pyCharLower (c : Char) : Char :=
  match c with
  | 'A' => 'a'
  | 'B' => 'b'
  | 'C' => 'c'
  | 'D' => 'd'
  | 'E' => 'e'
  | 'F' => 'f'
  | 'G' => 'g'
  | 'H' => 'h'
  | 'I' => 'i'
  | 'J' => 'j'
  | 'K' => 'k'
  | 'L' => 'l'
  | 'M' => 'm'
  | 'N' => 'n'
  | 'O' => 'o'
  | 'P' => 'p'
  | 'Q' => 'q'
  | 'R' => 'r'
  | 'S' => 's'
  | 'T' => 't'
  | 'U' => 'u'
  | 'V' => 'v'
  | 'W' => 'w'
  | 'X' => 'x'
  | 'Y' => 'y'
  | 'Z' => 'z'
  | _ => c

/-- Python str.lower over the character list (ASCII behaviour). -/
def pyLowerL (l : List Char) : List Char := l.map pyCharLower

/-- Python str.lower on strings. -/
def pyLower (s : String) : String := ⟨pyLowerL s.data⟩

/-- The default whitespace characters stripped by Python str.strip. -/
def isPySpace (c : Char) : Bool :=
  c = ' ' || c = '\t' || c = '\n' || c = '\r' || c = '\x0b' || c = '\x0c'

/-- Python str.strip over the character list: drop whitespace from both ends. -/
def pyStripL (l : List Char) : List Char :=
  ((l.dropWhile isPySpace).reverse.dropWhile isPySpace).reverse

/-- Python str.strip on strings. -/
def pyStrip (s : String) : String := ⟨pyStripL s.data⟩

/-- Python s.split(sep) for a one-character separator: empty pieces are kept,
"".split(sep) is [""]. -/
def splitCharL (sep : Char) : List Char → List (List Char)
  | [] => [[]]
  | c :: rest =>
    if c = sep then [] :: splitCharL sep rest
    else
      match splitCharL sep rest with
      | t :: ts => (c :: t) :: ts
      | [] => [[c]]

/-- Python kw.split("-") on strings. -/
def splitHyphen (s : String) : List String :=
  (splitCharL '-' s.data).map (fun l => ⟨l⟩)

/-- Python kw.replace("-", "") on strings: remove every hyphen. -/
def removeHyphens (s : String) : String := ⟨s.data.filter (fun c => c ≠ '-')⟩

/-- Membership of a character, Python's "'-' in kw". -/
def containsChar (s : String) (c : Char) : Bool := s.data.any (fun d => d = c)

/-- Python "needle in hay" on strings: contiguous substring test. -/
def containsSub (hay needle : String) : Bool :=
  hay.data.tails.any (fun t => needle.data.isPrefixOf t)

/-- Word characters of the regex \w (ASCII behaviour): letters, digits, underscore. -/
def isWordChar (c : Char) : Bool := c.isAlphanum || c = '_'

/-- Split a character list at every character satisfying p, keeping empty pieces
(the re.split behaviour before the length filter applied by the extractor). -/
def splitOnPredL (p : Char → Bool) : List Char → List (List Char)
  | [] => [[]]
  | c :: rest =>
    if p c then [] :: splitOnPredL p rest
    else
      match splitOnPredL p rest with
      | t :: ts => (c :: t) :: ts
      | [] => [[c]]

/-- Order-preserving de-duplication, Python's list(dict.fromkeys(keywords)). -/
def dedupKeepFirst (l : List String) : List String :=
  l.foldl (fun acc t => if t ∈ acc then acc else acc ++ [t]) []

/-- Round-half-to-even of 100 times the argument to an integer, computed over
the rational's numerator and denominator with integer arithmetic: the
behaviour of Python's round(q, 2), scaled by 100 (banker's rounding). -/
def pyRoundCenti (q : Rat) : Int :=
  let n : Int := 100 * q.num
  let d : Int := (q.den : Int)
  let f : Int := Int.fdiv n d
  let twiceRem : Int := 2 * (n - f * d)
  if twiceRem < d then f
  else if d < twiceRem then f + 1
  else if f % 2 = 0 then f else f + 1

/-- Python round(q, 2): round to two decimal places, half to even. -/
def pyRound2 (q : Rat) : Rat := mkRat (pyRoundCenti q) 100

/-- pipeline/states.py: the JobState enumeration. -/
inductive JobState where
  | FETCHED
  | NORMALIZED
  | EVALUATED
  | SKIPPED
  | HUMAN_REVIEW
  | PLANNED
  | MATERIAL_READY
  | SUBMITTED
deriving DecidableEq, Repr

/-- A raw job posting dictionary as consumed by JobNormalizer.normalize; absent
keys are modelled by the defaults the source's dict.get calls supply. -/
structure RawJob where
  title : String := ""
  company : String := ""
  location : String := ""
  employment_type : Option String := none
  description : String := ""
  source_url : String := ""
deriving DecidableEq, Repr

/-- agents/job_normalizer.py: the Job dataclass. -/
structure Job where
  job_id : String
  title : String
  company : String
  location : String
  employment_type : Option String
  seniority : String
  keywords : List String
  responsibilities : List String
  requirements : List String
  source_url : String
deriving DecidableEq, Repr

/-- JobNormalizer._derive_job_id: the sha1 hex digest of the lower-cased
"company|title|location" identity string.  The hash itself (hashlib.sha1, an
external library) is the parameter h, applied to exactly the identity string
the source builds. -/
def deriveJobId (h : String → String) (title company location : String) : String :=
  h ⟨pyLowerL (company.data ++ '|' :: title.data ++ '|' :: location.data)⟩

/-- JobNormalizer._extract_keywords: split the lower-cased description on
non-word characters, keep tokens of length at least three, de-duplicate
preserving order. -/
def extractKeywords (description : String) : List String :=
  dedupKeepFirst
    (((splitOnPredL (fun c => !(isWordChar c)) (pyLowerL description.data)).map
        (fun l => (⟨l⟩ : String))).filter (fun t => 3 ≤ t.length))

/-- The seniority inference of JobNormalizer.normalize, from substrings of the
lower-cased title. -/
def seniorityOf (title : String) : String :=
  let lt := pyLower title
  if ["intern", "junior"].any (fun kw => containsSub lt kw) then "junior"
  else if ["senior", "lead", "principal"].any (fun kw => containsSub lt kw) then "senior"
  else if ["manager", "director"].any (fun kw => containsSub lt kw) then "mid"
  else "unknown"

/-- JobNormalizer.normalize: strip title/company/location, derive the job id,
extract keywords, infer seniority, default an empty location to "remote". -/
def normalize (h : String → String) (raw : RawJob) : Job :=
  let title := pyStrip raw.title
  let company := pyStrip raw.company
  let location := pyStrip raw.location
  let keywords := extractKeywords raw.description
  { job_id := deriveJobId h title company location
    title := title
    company := company
    location := if location = "" then "remote" else location
    employment_type := raw.employment_type
    seniority := seniorityOf title
    keywords := keywords
    responsibilities := keywords
    requirements := keywords
    source_url := raw.source_url }

/-- agents/job_evaluator.py: the CandidateProfile dataclass.  Of the
hard_filters dictionary only the "location" key is ever read by the source, as
an optional list of allowed locations; Python truthiness makes None and the
empty list behave alike there. -/
structure CandidateProfile where
  target_titles : List String := []
  must_have : List String := []
  nice_to_have : List String := []
  hard_filters_location : Option (List String) := none
  soft_preferences : List (String × Rat) := []
deriving DecidableEq, Repr

/-- agents/job_evaluator.py: the Decision dataclass.  The match score is kept
as an exact rational. -/
structure Decision where
  match_score : Rat
  pass_hard_filter : Bool
  strengths : List String
  gaps : List String
  risk_flags : List String
  recommendation : String
deriving DecidableEq, Repr

/-- The lexical variation set built for one (already lower-cased) must-have
keyword: the keyword itself, and when it contains a hyphen also the keyword
with hyphens removed and every hyphen-separated piece. -/
def variations (kw : String) : List String :=
  kw :: (if containsChar kw '-' then removeHyphens kw :: splitHyphen kw else [])

/-- The matching test of the must-have loop: some non-empty variation occurs
in the (already lower-cased) job keyword list ("if v and v in job_keywords"). -/
def mhMatched (jobKeywords : List String) (kw : String) : Bool :=
  (variations kw).any (fun v => v ≠ "" && jobKeywords.contains v)

/-- The must-have accumulation loop of JobEvaluator.evaluate: returns
(hits, strengths, gaps), processing keywords in order and appending each to
strengths when matched and to gaps otherwise. -/
def mhLoop (jobKeywords : List String) : List String → Nat × List String × List String
  | [] => (0, [], [])
  | kw :: rest =>
    let tail := mhLoop jobKeywords rest
    if mhMatched jobKeywords kw then (tail.1 + 1, kw :: tail.2.1, tail.2.2)
    else (tail.1, tail.2.1, kw :: tail.2.2)

/-- JobEvaluator.evaluate.  The embedder call is a no-op for the result (its
value is discarded and exceptions from it are swallowed by the source's
try/except), so it does not appear here. -/
def evaluate (profile : CandidateProfile) (job : Job) : Decision :=
  let must_have := profile.must_have.map pyLower
  let job_keywords := job.keywords.map pyLower
  let loop := mhLoop job_keywords must_have
  let strengths := if must_have = [] then [] else loop.2.1
  let gaps := if must_have = [] then [] else loop.2.2
  let score : Rat := if must_have = [] then mkRat 1 1 else mkRat (loop.1 : Int) must_have.length
  let passes : Bool :=
    match profile.hard_filters_location with
    | none => true
    | some [] => true
    | some locs => (locs.map pyLower).contains (pyLower job.location)
  let risk_flags :=
    (match job.employment_type with
     | some et => if et ≠ "" && containsSub (pyLower et) "contract" then ["contract"] else []
     | none => []) ++
    (if score < mkRat 1 2 then ["low_match"] else [])
  let recommendation : String :=
    if passes = false ∨ score = 0 then "skip"
    else if mkRat 7 10 ≤ score then "apply"
    else if mkRat 2 5 ≤ score ∧ score < mkRat 7 10 then "human_review"
    else "skip"
  { match_score := pyRound2 score
    pass_hard_filter := passes
    strengths := strengths
    gaps := gaps
    risk_flags := risk_flags
    recommendation := recommendation }

/-- The resume_strategy dictionary built by ApplicationPlanner.plan. -/
structure ResumeStrategy where
  use_core : Bool
  highlight_modules : List String
deriving DecidableEq, Repr

/-- The cover_letter dictionary built by ApplicationPlanner.plan. -/
structure CoverLetterSpec where
  required : Bool
  style : String
deriving DecidableEq, Repr

/-- agents/application_planner.py: the ApplicationPlan dataclass.  The empty
default dictionaries of resume_strategy and cover_letter are modelled as none. -/
structure ApplicationPlan where
  apply : Bool
  resume_strategy : Option ResumeStrategy := none
  cover_letter : Option CoverLetterSpec := none
  automation_level : String := "manual"
deriving DecidableEq, Repr

/-- pipeline/runner.py resume inventory shape: core resume text, module name
list and module-name-to-text mapping. -/
structure ResumeInventory where
  core_resume : String := ""
  modules : List String := []
  modules_dict : List (String × String) := []
deriving DecidableEq, Repr

/-- The module selection loop of ApplicationPlanner.plan: keep every available
module whose lower-cased name occurs among the lower-cased job keywords and
decision strengths. -/
def selectModules (job : Job) (decision : Decision) (available : List String) : List String :=
  available.filter (fun m =>
    ((job.keywords ++ decision.strengths).map pyLower).contains (pyLower m))

/-- ApplicationPlanner.plan with its threshold (the constructor default is 1/2). -/
def plan (threshold : Rat) (job : Job) (decision : Decision) (inv : ResumeInventory) :
    ApplicationPlan :=
  if decision.pass_hard_filter = false then { apply := false }
  else if decision.recommendation ≠ "apply" then { apply := false }
  else if decision.match_score < threshold then { apply := false }
  else
    { apply := true
      resume_strategy := some
        { use_core := true
          highlight_modules := selectModules job decision inv.modules }
      cover_letter := some { required := true, style := "formal" }
      automation_level := "manual" }

/-- One row of the jobs table.  JSON payload round trips are modelled as the
identity, so the payload columns hold the structured values directly; a NULL
column is none. -/
structure JobRow where
  job_id : String
  raw_data : RawJob
  state : JobState
  normalized_data : Option Job := none
  decision_data : Option Decision := none
  plan_data : Option ApplicationPlan := none
deriving DecidableEq, Repr

/-- The jobs table in rowid (insertion) order. -/
abbrev Store := List JobRow

/-- JobStateMachine.add_jobs: for each raw posting derive its job id via the
normalizer and insert a FETCHED row only when no row with that id exists. -/
def addJobs (h : String → String) (raws : List RawJob) (s : Store) : Store :=
  raws.foldl
    (fun s raw =>
      let tmp := normalize h raw
      if s.any (fun r => r.job_id = tmp.job_id) then s
      else s ++ [{ job_id := tmp.job_id, raw_data := raw, state := .FETCHED }])
    s

/-- The states _get_next_row filters out ("finished" per its SQL: SUBMITTED or
SKIPPED). -/
def isFinished (st : JobState) : Bool := st = .SUBMITTED || st = .SKIPPED

/-- JobStateMachine._get_next_row: the first row, in rowid order, whose state
is neither SUBMITTED nor SKIPPED. -/
def getNextRow (s : Store) : Option JobRow := s.find? (fun r => !(isFinished r.state))

/-- The fields an _update_job call supplies; an omitted field is none and is
left unchanged (the source never writes NULL into a payload column). -/
structure RowUpdate where
  state : Option JobState := none
  normalized_data : Option Job := none
  decision_data : Option Decision := none
  plan_data : Option ApplicationPlan := none

/-- Apply one _update_job field set to one row. -/
def applyUpdate (u : RowUpdate) (r : JobRow) : JobRow :=
  { r with
    state := u.state.getD r.state
    normalized_data := match u.normalized_data with | some j => some j | none => r.normalized_data
    decision_data := match u.decision_data with | some d => some d | none => r.decision_data
    plan_data := match u.plan_data with | some p => some p | none => r.plan_data }

/-- JobStateMachine._update_job: update every row whose job_id matches (the
table holds at most one such row for stores built by add_jobs). -/
def updateJob (jid : String) (u : RowUpdate) (s : Store) : Store :=
  s.map (fun r => if r.job_id = jid then applyUpdate u r else r)

/-- Outcomes of the collaborator call sites inside one step() invocation.  The
source has no try/except around them, so a raising call aborts the step before
its single _update_job commit; the boolean results of fill_form and the upload
helpers are recorded here because the source receives and discards them.  The
concrete stubs of the repository never raise and always return True
(confirm.py, form_filler.py, upload.py, screenshot.py). -/
structure StepOracle where
  normalizeRaises : Bool := false
  evaluateRaises : Bool := false
  planRaises : Bool := false
  resumeModifyRaises : Bool := false
  coverWriteRaises : Bool := false
  confirmRaises : Bool := false
  confirmResult : Bool := true
  fillFormRaises : Bool := false
  fillFormResult : Bool := true
  uploadResumeRaises : Bool := false
  uploadResumeResult : Bool := true
  uploadCoverRaises : Bool := false
  uploadCoverResult : Bool := true
  screenshotRaises : Bool := false
deriving DecidableEq, Repr

/-- The oracle describing the repository's own collaborator stubs: nothing
raises, confirmation and every submission helper succeed. -/
def defaultOracle : StepOracle := {}

/-- Result of one step() invocation: either the Python call returned (with the
bool step() returns), or an exception propagated out of it.  Both carry the
database contents at that moment. -/
inductive StepResult where
  | ok (s : Store) (progressed : Bool)
  | raised (s : Store)
deriving DecidableEq, Repr

/-- JobStateMachine.step: select the next unfinished row and dispatch on its
state, committing at most one transition.  A none payload where the source
unpacks one (Job(**None) and the like) raises a TypeError, modelled as raised. -/
def step (h : String → String) (profile : CandidateProfile) (inv : ResumeInventory)
    (o : StepOracle) (s : Store) : StepResult :=
  match getNextRow s with
  | none => .ok s false
  | some row =>
    match row.state with
    | .FETCHED =>
      if o.normalizeRaises then .raised s
      else
        .ok (updateJob row.job_id
              { normalized_data := some (normalize h row.raw_data)
                state := some .NORMALIZED } s) true
    | .NORMALIZED =>
      match row.normalized_data with
      | none => .raised s
      | some job =>
        if o.evaluateRaises then .raised s
        else
          .ok (updateJob row.job_id
                { decision_data := some (evaluate profile job)
                  state := some .EVALUATED } s) true
    | .EVALUATED =>
      match row.decision_data with
      | none => .raised s
      | some decision =>
        if decision.recommendation = "skip" then
          .ok (updateJob row.job_id { state := some .SKIPPED } s) true
        else if decision.recommendation = "human_review" then
          .ok (updateJob row.job_id { state := some .HUMAN_REVIEW } s) true
        else
          .ok (updateJob row.job_id { state := some .PLANNED } s) true
    | .PLANNED =>
      match row.normalized_data, row.decision_data with
      | some job, some decision =>
        if o.planRaises then .raised s
        else
          .ok (updateJob row.job_id
                { plan_data := some (plan (mkRat 1 2) job decision inv)
                  state := some .MATERIAL_READY } s) true
      | _, _ => .raised s
    | .MATERIAL_READY =>
      match row.normalized_data, row.plan_data with
      | some _, some p =>
        if p.apply = false then
          .ok (updateJob row.job_id { state := some .SKIPPED } s) true
        else if o.resumeModifyRaises then .raised s
        else if o.coverWriteRaises then .raised s
        else if o.confirmRaises then .raised s
        else if o.confirmResult then
          if o.fillFormRaises then .raised s
          else if o.uploadResumeRaises then .raised s
          else if o.uploadCoverRaises then .raised s
          else if o.screenshotRaises then .raised s
          else .ok (updateJob row.job_id { state := some .SUBMITTED } s) true
        else
          .ok (updateJob row.job_id { state := some .HUMAN_REVIEW } s) true
      | _, _ => .raised s
    | _ => .ok s false

/-- The store contents after one step() call, keeping the database state of a
raising step (its exception aborts before any commit of that step). -/
def stepStore (h : String → String) (profile : CandidateProfile) (inv : ResumeInventory)
    (o : StepOracle) (s : Store) : Store :=
  match step h profile inv o s with
  | .ok s' _ => s'
  | .raised s' => s'

/-- Result of JobStateMachine.run: normal return, a propagated exception, or
fuel exhaustion of the model (never reached when the fuel bound exceeds the
store's rank, see runFuel lemmas). -/
inductive RunResult where
  | ok (s : Store)
  | raised (s : Store)
  | fuelOut (s : Store)
deriving DecidableEq, Repr

/-- JobStateMachine.run: repeatedly call step() until it returns False.  The
oracle stream supplies the collaborator outcomes of each successive step; the
fuel argument bounds the iteration count in the model. -/
def runFuel (h : String → String) (profile : CandidateProfile) (inv : ResumeInventory)
    (os : Nat → StepOracle) : Nat → Store → RunResult
  | 0, s => .fuelOut s
  | fuel + 1, s =>
    match step h profile inv (os fuel) s with
    | .raised s' => .raised s'
    | .ok s' false => .ok s'
    | .ok s' true => runFuel h profile inv os fuel s'

/-- Distance of a state from the end of the pipeline: the number of step()
transitions that can still start from it. -/
def stateRank : JobState → Nat
  | .FETCHED => 5
  | .NORMALIZED => 4
  | .EVALUATED => 3
  | .PLANNED => 2
  | .MATERIAL_READY => 1
  | _ => 0

/-- Total remaining work of a store; a strict bound on the number of
progressing steps. -/
def storeRank (s : Store) : Nat := (s.map (fun r => stateRank r.state)).sum

/-- The stage ordering of the specification: FETCHED < NORMALIZED < EVALUATED
< the SKIPPED / HUMAN_REVIEW / PLANNED class < MATERIAL_READY < SUBMITTED. -/
def stageRank : JobState → Nat
  | .FETCHED => 0
  | .NORMALIZED => 1
  | .EVALUATED => 2
  | .SKIPPED => 3
  | .HUMAN_REVIEW => 3
  | .PLANNED => 3
  | .MATERIAL_READY => 4
  | .SUBMITTED => 5

/-- Look a row up by job id. -/
def findRow (jid : String) (s : Store) : Option JobRow := s.find? (fun r => r.job_id = jid)

/-- All stores visited while executing a list of step() calls, the initial one
included. -/
def execStores (h : String → String) (profile : CandidateProfile) (inv : ResumeInventory) :
    List StepOracle → Store → List Store
  | [], s => [s]
  | o :: os, s => s :: execStores h profile inv os (stepStore h profile inv o s)

/-- The store after executing a list of step() calls. -/
def execFinal (h : String → String) (profile : CandidateProfile) (inv : ResumeInventory) :
    List StepOracle → Store → Store
  | [], s => s
  | o :: os, s => execFinal h profile inv os (stepStore h profile inv o s)

/-- The record with a given job id satisfied p at some visited store. -/
def everInTrace (h : String → String) (profile : CandidateProfile) (inv : ResumeInventory)
    (os : List StepOracle) (s : Store) (jid : String) (p : JobRow → Bool) : Prop :=
  ∃ st ∈ execStores h profile inv os s, ∃ r, findRow jid st = some r ∧ p r = true

/-- The unrounded score computed inside JobEvaluator.evaluate before the
two-decimal rounding stored into the Decision. -/
def evalScore (profile : CandidateProfile) (job : Job) : Rat :=
  let must_have := profile.must_have.map pyLower
  let job_keywords := job.keywords.map pyLower
  if must_have = [] then mkRat 1 1
  else mkRat ((mhLoop job_keywords must_have).1 : Int) must_have.length

/-- A job posting used as a concrete test vector: the keyword set of the
specification's scoring-determinism example. -/
def jobSpecEx : Job :=
  { job_id := "", title := "", company := "", location := "Remote",
    employment_type := none, seniority := "unknown",
    keywords := ["python", "rna-seq", "cloud", "other"],
    responsibilities := [], requirements := [], source_url := "" }

/-- The candidate profile of the specification's scoring examples. -/
def profSpecEx : CandidateProfile := { must_have := ["python", "rna-seq", "cloud"] }

/-- A profile with no must-have keywords. -/
def profEmptyMH : CandidateProfile := {}

/-- The specification's hard-filter rejection example: allowed locations. -/
def profBoston : CandidateProfile :=
  { must_have := ["python"], hard_filters_location := some ["Boston, MA", "Remote"] }

/-- The specification's hard-filter rejection example: a New York job whose
keywords fully match the must-have list. -/
def jobNY : Job :=
  { job_id := "", title := "", company := "", location := "New York, NY",
    employment_type := none, seniority := "unknown",
    keywords := ["python"],
    responsibilities := [], requirements := [], source_url := "" }

/-- Two strings that differ only in surrounding whitespace and in letter case:
each is a whitespace padding of a common core, up to case. -/
def WsCaseVariant (a b : String) : Prop :=
  ∃ u u' v v' x y : List Char,
    (∀ c ∈ u, isPySpace c = true) ∧ (∀ c ∈ u', isPySpace c = true) ∧
    (∀ c ∈ v, isPySpace c = true) ∧ (∀ c ∈ v', isPySpace c = true) ∧
    a.data = u ++ x ++ u' ∧ b.data = v ++ y ++ v' ∧ pyLowerL x = pyLowerL y

/-- An identity stand-in for the external sha1 hex function in concrete
witnesses; every general theorem is quantified over the hash function. -/
def hashId : String → String := fun s => s

/-- Case-variant postings used by the C6 witness. -/
def rawCase1 : RawJob := { title := "Dev", company := "Acme", location := "Remote" }

/-- Case-variant postings used by the C6 witness. -/
def rawCase2 : RawJob := { title := "DEV", company := "acme", location := "REMOTE" }

def rawWs1 : RawJob := { title := " Dev ", company := "Acme", location := "   " }

/-- Whitespace-variant postings used by the C10 witness. -/
def rawWs2 : RawJob := { title := "dev", company := " ACME ", location := "" }

/-- No collaborator call of this step raises: the behaviour of the
repository's own stubs, which never throw. -/
def NoRaise (o : StepOracle) : Prop :=
  o.normalizeRaises = false ∧ o.evaluateRaises = false ∧ o.planRaises = false ∧
  o.resumeModifyRaises = false ∧ o.coverWriteRaises = false ∧ o.confirmRaises = false ∧
  o.fillFormRaises = false ∧ o.uploadResumeRaises = false ∧
  o.uploadCoverRaises = false ∧ o.screenshotRaises = false

/-- The per-row consistency invariant the FSM maintains: each state determines
which payloads are present and ties their contents to the agents' outputs on
the stored raw data. -/
def RecordInv (h : String → String) (profile : CandidateProfile) (inv : ResumeInventory)
    (r : JobRow) : Prop :=
  match r.state with
  | .FETCHED => r.normalized_data = none ∧ r.decision_data = none ∧ r.plan_data = none
  | .NORMALIZED =>
    r.normalized_data = some (normalize h r.raw_data) ∧
    r.decision_data = none ∧ r.plan_data = none
  | .EVALUATED =>
    r.normalized_data = some (normalize h r.raw_data) ∧
    r.decision_data = some (evaluate profile (normalize h r.raw_data)) ∧
    r.plan_data = none
  | .SKIPPED =>
    r.normalized_data = some (normalize h r.raw_data) ∧
    r.decision_data = some (evaluate profile (normalize h r.raw_data)) ∧
    (evaluate profile (normalize h r.raw_data)).recommendation = "skip" ∧
    r.plan_data = none
  | .HUMAN_REVIEW =>
    r.normalized_data = some (normalize h r.raw_data) ∧
    r.decision_data = some (evaluate profile (normalize h r.raw_data)) ∧
    (((evaluate profile (normalize h r.raw_data)).recommendation = "human_review" ∧
        r.plan_data = none) ∨
      ((evaluate profile (normalize h r.raw_data)).recommendation = "apply" ∧
        r.plan_data = some (plan (mkRat 1 2) (normalize h r.raw_data)
          (evaluate profile (normalize h r.raw_data)) inv)))
  | .PLANNED =>
    r.normalized_data = some (normalize h r.raw_data) ∧
    r.decision_data = some (evaluate profile (normalize h r.raw_data)) ∧
    (evaluate profile (normalize h r.raw_data)).recommendation = "apply" ∧
    r.plan_data = none
  | .MATERIAL_READY =>
    r.normalized_data = some (normalize h r.raw_data) ∧
    r.decision_data = some (evaluate profile (normalize h r.raw_data)) ∧
    (evaluate profile (normalize h r.raw_data)).recommendation = "apply" ∧
    r.plan_data = some (plan (mkRat 1 2) (normalize h r.raw_data)
      (evaluate profile (normalize h r.raw_data)) inv)
  | .SUBMITTED =>
    r.normalized_data = some (normalize h r.raw_data) ∧
    r.decision_data = some (evaluate profile (normalize h r.raw_data)) ∧
    (evaluate profile (normalize h r.raw_data)).recommendation = "apply" ∧
    r.plan_data = some (plan (mkRat 1 2) (normalize h r.raw_data)
      (evaluate profile (normalize h r.raw_data)) inv)

/-- The store invariant: distinct job ids and per-row consistency. -/
def StoreInv (h : String → String) (profile : CandidateProfile) (inv : ResumeInventory)
    (s : Store) : Prop :=
  (s.map JobRow.job_id).Nodup ∧ ∀ r ∈ s, RecordInv h profile inv r

/-- The transition table of step(): the updates one progressing invocation may
commit for a selected row, derived from the source's dispatch. -/
def allowedUpdate (h : String → String) (profile : CandidateProfile) (inv : ResumeInventory)
    (row : JobRow) (u : RowUpdate) : Prop :=
  (row.state = .FETCHED ∧
    u = { normalized_data := some (normalize h row.raw_data), state := some .NORMALIZED }) ∨
  (∃ job, row.state = .NORMALIZED ∧ row.normalized_data = some job ∧
    u = { decision_data := some (evaluate profile job), state := some .EVALUATED }) ∨
  (∃ d, row.state = .EVALUATED ∧ row.decision_data = some d ∧
    ((d.recommendation = "skip" ∧ u = { state := some .SKIPPED }) ∨
     (d.recommendation = "human_review" ∧ u = { state := some .HUMAN_REVIEW }) ∨
     (d.recommendation ≠ "skip" ∧ d.recommendation ≠ "human_review" ∧
       u = { state := some .PLANNED }))) ∨
  (∃ job d, row.state = .PLANNED ∧ row.normalized_data = some job ∧
    row.decision_data = some d ∧
    u = { plan_data := some (plan (mkRat 1 2) job d inv), state := some .MATERIAL_READY }) ∨
  (∃ pl, row.state = .MATERIAL_READY ∧ row.plan_data = some pl ∧
    ((pl.apply = false ∧ u = { state := some .SKIPPED }) ∨
     (pl.apply = true ∧ (u = { state := some .SUBMITTED } ∨ u = { state := some .HUMAN_REVIEW }))))

/-- A raw posting that fully matches the single-keyword profile below. -/
def rawGood : RawJob :=
  { title := "Dev", company := "Acme", location := "Remote",
    description := "python developer" }

/-- A second raw posting, inserted behind the first. -/
def rawSecond : RawJob :=
  { title := "Dev2", company := "Other", location := "Remote",
    description := "python java expert" }

/-- A raw posting whose location fails profBoston's hard filter. -/
def rawBad : RawJob :=
  { title := "Dev", company := "BadCo", location := "Nowhere, ZZ",
    description := "python developer" }

/-- A profile the rawGood posting matches with score 1. -/
def profGood : CandidateProfile := { must_have := ["python"] }

/-- A profile the rawGood posting matches with score 1/2, routing it to
human review. -/
def profHR : CandidateProfile := { must_have := ["python", "java"] }

/-- A small resume inventory for concrete runs. -/
def invEx : ResumeInventory := { modules := ["python"] }

/-- The store holding the single rawGood posting. -/
def s0Good : Store := addJobs hashId [rawGood] []

/-- The job id of the rawGood posting under the identity hash. -/
def goodId : String := (normalize hashId rawGood).job_id

/-- The job id of the rawSecond posting under the identity hash. -/
def secondId : String := (normalize hashId rawSecond).job_id

/-- The final states of a run, when it returned normally. -/
def finalStates : RunResult → Option (List JobState)
  | .ok s => some (s.map (fun r => r.state))
  | .raised _ => none
  | .fuelOut _ => none

/-- Summary of one step() outcome: the row states after it, whether it
reported progress, and whether it raised. -/
def stepSummary : StepResult → List JobState × Bool × Bool
  | .ok s b => (s.map (fun r => r.state), b, false)
  | .raised s => (s.map (fun r => r.state), false, true)

def os3 : List StepOracle := [defaultOracle, defaultOracle, defaultOracle]
def rowGood0 : JobRow := { job_id := goodId, raw_data := rawGood, state := .FETCHED }
def s0Two : Store := addJobs hashId [rawGood, rawSecond] []
def s3Two : Store := execFinal hashId profHR invEx os3 s0Two
def sMRGood : Store := execFinal hashId profGood invEx (os3 ++ [defaultOracle]) s0Good

def everInTraceB (h : String → String) (profile : CandidateProfile) (inv : ResumeInventory)
    (os : List StepOracle) (s : Store) (jid : String) (p : JobRow → Bool) : Bool :=
  (execStores h profile inv os s).any (fun st => ((findRow jid st).map p).getD false)


theorem mhLoop_eq (jks : List String) (l : List String) :
    mhLoop jks l =
      ((l.filter (mhMatched jks)).length,
       l.filter (mhMatched jks),
       l.filter (fun kw => !(mhMatched jks kw))) := by
  induction l with
  | nil => rfl
  | cons kw rest ih =>
    simp only [mhLoop, ih, List.filter]
    cases hm : mhMatched jks kw <;> simp [hm]

theorem mhMatched_iff (jks : List String) (kw : String) :
    mhMatched jks kw = true ↔ ∃ v ∈ variations kw, v ≠ "" ∧ v ∈ jks := by
  simp [mhMatched, List.any_eq_true, Bool.and_eq_true, List.contains_iff_exists_mem_beq,
    beq_iff_eq]

theorem evaluate_strengths_eq (profile : CandidateProfile) (job : Job) :
    (evaluate profile job).strengths =
      (profile.must_have.map pyLower).filter (mhMatched (job.keywords.map pyLower)) := by
  simp only [evaluate, mhLoop_eq]
  split
  · rename_i hmt
    simp [hmt]
  · rfl

theorem evaluate_gaps_eq (profile : CandidateProfile) (job : Job) :
    (evaluate profile job).gaps =
      (profile.must_have.map pyLower).filter
        (fun kw => !(mhMatched (job.keywords.map pyLower) kw)) := by
  simp only [evaluate, mhLoop_eq]
  split
  · rename_i hmt
    simp [hmt]
  · rfl

theorem evaluate_match_score_eq (profile : CandidateProfile) (job : Job) :
    (evaluate profile job).match_score = pyRound2 (evalScore profile job) := rfl

theorem evalScore_of_ne_nil (profile : CandidateProfile) (job : Job)
    (hne : profile.must_have ≠ []) :
    evalScore profile job =
      (((profile.must_have.map pyLower).filter
          (mhMatched (job.keywords.map pyLower))).length : Rat) /
        (profile.must_have.length : Rat) := by
  have hm : profile.must_have.map pyLower ≠ [] := by
    simpa using hne
  simp [evalScore, hm, mhLoop_eq, Rat.mkRat_eq_div]

theorem evaluate_pass_eq (profile : CandidateProfile) (job : Job) :
    (evaluate profile job).pass_hard_filter =
      (match profile.hard_filters_location with
       | none => true
       | some [] => true
       | some locs => (locs.map pyLower).contains (pyLower job.location)) := rfl

theorem evaluate_recommendation_eq (profile : CandidateProfile) (job : Job) :
    (evaluate profile job).recommendation =
      (if (evaluate profile job).pass_hard_filter = false ∨ evalScore profile job = 0 then "skip"
       else if 7/10 ≤ evalScore profile job then "apply"
       else if 2/5 ≤ evalScore profile job ∧ evalScore profile job < 7/10 then "human_review"
       else "skip") := by
  have e710 : (7 : Rat)/10 = mkRat 7 10 := by
    rw [Rat.mkRat_eq_div]
    norm_num
  have e25 : (2 : Rat)/5 = mkRat 2 5 := by
    rw [Rat.mkRat_eq_div]
    norm_num
  rw [e710, e25]
  rfl

theorem length_filter_add_length_filter_not (p : String → Bool) (l : List String) :
    (l.filter p).length + (l.filter (fun x => !(p x))).length = l.length := by
  induction l with
  | nil => rfl
  | cons x rest ih =>
    cases hx : p x <;> simp [List.filter, hx] <;> omega

/-- C2: evaluate scores 1.0 on an empty must-have list; otherwise each
must-have keyword's variant set is the keyword plus, when hyphenated, its
de-hyphenated form and its hyphen-separated tokens, the keyword is matched
exactly when some non-empty variant occurs verbatim in the lower-cased job
keyword set, the score is matched count over total, matched keywords become
strengths and unmatched become gaps; in particular must-have "rna-seq"
matches job keyword "rnaseq", "rna" or "seq". -/
theorem C2_variant_matching_and_score (profile : CandidateProfile) (job : Job) :
    (profile.must_have = [] → evalScore profile job = 1) ∧
    (∀ kw, mhMatched (job.keywords.map pyLower) kw = true ↔
      ∃ v ∈ variations kw, v ≠ "" ∧ v ∈ job.keywords.map pyLower) ∧
    (profile.must_have ≠ [] →
      evalScore profile job =
        (((profile.must_have.map pyLower).filter
            (mhMatched (job.keywords.map pyLower))).length : Rat) /
          (profile.must_have.length : Rat)) ∧
    (evaluate profile job).strengths =
      (profile.must_have.map pyLower).filter (mhMatched (job.keywords.map pyLower)) ∧
    (evaluate profile job).gaps =
      (profile.must_have.map pyLower).filter
        (fun kw => !(mhMatched (job.keywords.map pyLower) kw)) ∧
    variations "rna-seq" = ["rna-seq", "rnaseq", "rna", "seq"] ∧
    mhMatched ["rnaseq"] "rna-seq" = true ∧
    mhMatched ["rna"] "rna-seq" = true ∧
    mhMatched ["seq"] "rna-seq" = true := by
  refine ⟨?_, fun kw => mhMatched_iff _ kw, evalScore_of_ne_nil profile job,
    evaluate_strengths_eq profile job, evaluate_gaps_eq profile job,
    by decide, by decide, by decide, by decide⟩
  intro hmt
  simp [evalScore, hmt]

theorem C2_variant_matching_and_score_witness :
    (evalScore profEmptyMH jobSpecEx = 1) ∧
    (evalScore profSpecEx jobSpecEx =
      (((profSpecEx.must_have.map pyLower).filter
          (mhMatched (jobSpecEx.keywords.map pyLower))).length : Rat) /
        (profSpecEx.must_have.length : Rat)) :=
  ⟨(C2_variant_matching_and_score profEmptyMH jobSpecEx).1 rfl,
   (C2_variant_matching_and_score profSpecEx jobSpecEx).2.2.1 (by decide)⟩

/-- C9: with a non-empty must-have list, strengths and gaps are the ordered
partition of the lower-cased must-have list by the match test, each must-have
keyword lands lower-cased in exactly one of the two lists, the lengths sum to
the must-have count, and the unrounded score is strengths-count over
must-have-count (the Decision stores its two-decimal rounding). -/
theorem C9_strengths_gaps_partition (profile : CandidateProfile) (job : Job)
    (hne : profile.must_have ≠ []) :
    (evaluate profile job).strengths =
      (profile.must_have.map pyLower).filter (mhMatched (job.keywords.map pyLower)) ∧
    (evaluate profile job).gaps =
      (profile.must_have.map pyLower).filter
        (fun kw => !(mhMatched (job.keywords.map pyLower) kw)) ∧
    (∀ kw ∈ profile.must_have,
      (pyLower kw ∈ (evaluate profile job).strengths ∧
        pyLower kw ∉ (evaluate profile job).gaps) ∨
      (pyLower kw ∉ (evaluate profile job).strengths ∧
        pyLower kw ∈ (evaluate profile job).gaps)) ∧
    (evaluate profile job).strengths.length + (evaluate profile job).gaps.length =
      profile.must_have.length ∧
    evalScore profile job =
      ((evaluate profile job).strengths.length : Rat) / (profile.must_have.length : Rat) ∧
    (evaluate profile job).match_score = pyRound2 (evalScore profile job) := by
  refine ⟨evaluate_strengths_eq profile job, evaluate_gaps_eq profile job, ?_, ?_, ?_,
    evaluate_match_score_eq profile job⟩
  · intro kw hkw
    rw [evaluate_strengths_eq, evaluate_gaps_eq]
    have hmem : pyLower kw ∈ profile.must_have.map pyLower := List.mem_map_of_mem _ hkw
    by_cases hm : mhMatched (job.keywords.map pyLower) (pyLower kw) = true
    · left
      constructor
      · exact List.mem_filter.mpr ⟨hmem, hm⟩
      · intro hc
        have := (List.mem_filter.mp hc).2
        simp [hm] at this
    · right
      constructor
      · intro hc
        exact hm (List.mem_filter.mp hc).2
      · exact List.mem_filter.mpr ⟨hmem, by simp [hm]⟩
  · rw [evaluate_strengths_eq, evaluate_gaps_eq]
    have := length_filter_add_length_filter_not
      (mhMatched (job.keywords.map pyLower)) (profile.must_have.map pyLower)
    simpa using this
  · rw [evaluate_strengths_eq, evalScore_of_ne_nil profile job hne]

theorem C9_strengths_gaps_partition_witness :
    profSpecEx.must_have ≠ [] ∧
    (evaluate profSpecEx jobSpecEx).strengths.length +
        (evaluate profSpecEx jobSpecEx).gaps.length = profSpecEx.must_have.length :=
  ⟨by decide, (C9_strengths_gaps_partition profSpecEx jobSpecEx (by decide)).2.2.2.1⟩

/-- C3: the hard filter passes unconditionally when no allowed-location list
is specified (a missing or empty list, per Python truthiness), and otherwise
passes exactly when the job's location equals an allowed entry
case-insensitively; the recommendation is skip on a failed filter or zero
score, else apply at score at least 0.7, else human_review at score in
[0.4, 0.7), else skip; the specification's New York example fails the filter
and is recommended skip. -/
theorem C3_hard_filter_and_recommendation (profile : CandidateProfile) (job : Job) :
    (profile.hard_filters_location = none → (evaluate profile job).pass_hard_filter = true) ∧
    (profile.hard_filters_location = some [] →
      (evaluate profile job).pass_hard_filter = true) ∧
    (∀ locs, profile.hard_filters_location = some locs → locs ≠ [] →
      ((evaluate profile job).pass_hard_filter = true ↔
        ∃ a ∈ locs, pyLower a = pyLower job.location)) ∧
    ((evaluate profile job).pass_hard_filter = false ∨ evalScore profile job = 0 →
      (evaluate profile job).recommendation = "skip") ∧
    ((evaluate profile job).pass_hard_filter = true → evalScore profile job ≠ 0 →
      7/10 ≤ evalScore profile job → (evaluate profile job).recommendation = "apply") ∧
    ((evaluate profile job).pass_hard_filter = true → evalScore profile job ≠ 0 →
      2/5 ≤ evalScore profile job → evalScore profile job < 7/10 →
      (evaluate profile job).recommendation = "human_review") ∧
    ((evaluate profile job).pass_hard_filter = true → evalScore profile job ≠ 0 →
      evalScore profile job < 2/5 → (evaluate profile job).recommendation = "skip") ∧
    (evaluate profBoston jobNY).pass_hard_filter = false ∧
    (evaluate profBoston jobNY).recommendation = "skip" := by
  refine ⟨?_, ?_, ?_, ?_, ?_, ?_, ?_, by decide, by decide⟩
  · intro hn
    rw [evaluate_pass_eq, hn]
  · intro hn
    rw [evaluate_pass_eq, hn]
  · intro locs hl hne
    rw [evaluate_pass_eq, hl]
    match locs, hne with
    | a :: rest, _ =>
      simp only [List.contains_iff_exists_mem_beq, beq_iff_eq, List.mem_map]
      constructor
      · rintro ⟨v, ⟨b, hb, rfl⟩, hv⟩
        exact ⟨b, hb, hv.symm⟩
      · rintro ⟨b, hb, hbe⟩
        exact ⟨pyLower b, ⟨b, hb, rfl⟩, hbe.symm⟩
  · intro hcond
    rw [evaluate_recommendation_eq, if_pos]
    rcases hcond with hpf | hsc
    · exact Or.inl hpf
    · exact Or.inr hsc
  · intro hp hs h7
    rw [evaluate_recommendation_eq, if_neg, if_pos h7]
    simp [hp, hs]
  · intro hp hs h4 h7
    rw [evaluate_recommendation_eq, if_neg, if_neg, if_pos ⟨h4, h7⟩]
    · simp [not_le.mpr h7]
    · simp [hp, hs]
  · intro hp hs h4
    have h7 : ¬(7/10 ≤ evalScore profile job) := by
      intro hc
      exact absurd (lt_of_le_of_lt hc h4) (by norm_num)
    rw [evaluate_recommendation_eq, if_neg, if_neg h7, if_neg]
    · rintro ⟨h4', -⟩
      exact absurd h4 (not_lt.mpr h4')
    · simp [hp, hs]

theorem C3_hard_filter_and_recommendation_witness :
    ((evaluate profEmptyMH jobSpecEx).pass_hard_filter = true) ∧
    ((evaluate profBoston jobNY).recommendation = "skip") :=
  ⟨(C3_hard_filter_and_recommendation profEmptyMH jobSpecEx).1 rfl,
   ((C3_hard_filter_and_recommendation profBoston jobNY).2.2.2.1
      (Or.inl (by decide)))⟩

/-- C8: plan returns apply = false with an empty plan exactly when the hard
filter failed, the recommendation is not apply, or the match score is below
the threshold (the planner's constructor default is 0.5); otherwise it
returns apply = true, highlight modules exactly the available module names
matching a job keyword or decision strength case-insensitively, use_core
true, a required formal cover letter, and manual automation. -/
theorem C8_plan_shape (threshold : Rat) (job : Job) (decision : Decision)
    (inv : ResumeInventory) :
    (decision.pass_hard_filter = false ∨ decision.recommendation ≠ "apply" ∨
        decision.match_score < threshold →
      plan threshold job decision inv = { apply := false }) ∧
    (decision.pass_hard_filter = true → decision.recommendation = "apply" →
      threshold ≤ decision.match_score →
      plan threshold job decision inv =
        { apply := true
          resume_strategy := some
            { use_core := true
              highlight_modules := selectModules job decision inv.modules }
          cover_letter := some { required := true, style := "formal" }
          automation_level := "manual" }) ∧
    (∀ m, m ∈ selectModules job decision inv.modules ↔
      m ∈ inv.modules ∧
        ∃ k ∈ job.keywords ++ decision.strengths, pyLower k = pyLower m) := by
  refine ⟨?_, ?_, ?_⟩
  · intro hcond
    simp only [plan]
    split
    · rfl
    · split
      · rfl
      · split
        · rfl
        · rename_i h1 h2 h3
          exfalso
          rcases hcond with hpf | hrec | hsc
          · exact h1 hpf
          · exact h2 hrec
          · exact h3 hsc
  · intro hpf hrec hsc
    simp [plan, hpf, hrec, not_lt.mpr hsc]
  · intro m
    simp only [selectModules, List.mem_filter, List.contains_iff_exists_mem_beq,
      beq_iff_eq, List.mem_map]
    constructor
    · rintro ⟨hm, v, ⟨k, hk, rfl⟩, hv⟩
      exact ⟨hm, k, hk, hv.symm⟩
    · rintro ⟨hm, k, hk, hke⟩
      exact ⟨hm, pyLower k, ⟨k, hk, rfl⟩, hke.symm⟩

theorem C8_plan_shape_witness :
    (plan (1/2) jobNY
        { match_score := 1, pass_hard_filter := false, strengths := [], gaps := [],
          risk_flags := [], recommendation := "apply" } {} =
      { apply := false }) ∧
    (plan (1/2) jobSpecEx
        { match_score := 1, pass_hard_filter := true, strengths := ["python"], gaps := [],
          risk_flags := [], recommendation := "apply" }
        { modules := ["Python", "golf"] } =
      { apply := true
        resume_strategy := some
          { use_core := true
            highlight_modules := selectModules jobSpecEx
              { match_score := 1, pass_hard_filter := true, strengths := ["python"],
                gaps := [], risk_flags := [], recommendation := "apply" }
              ["Python", "golf"] }
        cover_letter := some { required := true, style := "formal" }
        automation_level := "manual" }) :=
  ⟨(C8_plan_shape (1/2) jobNY _ {}).1 (Or.inl rfl),
   (C8_plan_shape (1/2) jobSpecEx _ { modules := ["Python", "golf"] }).2.1
      rfl rfl (by norm_num)⟩

theorem isPySpace_pyCharLower (c : Char) : isPySpace (pyCharLower c) = isPySpace c := by
  unfold pyCharLower
  split
  all_goals rfl

theorem dropWhile_pyLowerL (l : List Char) :
    (pyLowerL l).dropWhile isPySpace = pyLowerL (l.dropWhile isPySpace) := by
  induction l with
  | nil => rfl
  | cons c rest ih =>
    have ih' : List.dropWhile isPySpace (List.map pyCharLower rest) =
        List.map pyCharLower (List.dropWhile isPySpace rest) := ih
    cases hc : isPySpace c <;>
      simp [pyLowerL, List.dropWhile_cons, isPySpace_pyCharLower, hc, ih']

theorem pyLowerL_reverse (l : List Char) : pyLowerL l.reverse = (pyLowerL l).reverse :=
  List.map_reverse pyCharLower l

theorem pyStripL_pyLowerL (l : List Char) :
    pyStripL (pyLowerL l) = pyLowerL (pyStripL l) := by
  unfold pyStripL
  rw [dropWhile_pyLowerL, ← pyLowerL_reverse, dropWhile_pyLowerL, ← pyLowerL_reverse]

theorem pyLowerL_append (a b : List Char) : pyLowerL (a ++ b) = pyLowerL a ++ pyLowerL b :=
  List.map_append pyCharLower a b

theorem normalize_job_id_eq (h : String → String) (raw : RawJob) :
    (normalize h raw).job_id =
      h ⟨pyLowerL ((pyStrip raw.company).data ++ '|' :: (pyStrip raw.title).data ++
          '|' :: (pyStrip raw.location).data)⟩ := rfl

theorem deriveJobId_of_lower_eq (h : String → String) {t1 c1 l1 t2 c2 l2 : String}
    (ht : pyLower t1 = pyLower t2) (hc : pyLower c1 = pyLower c2)
    (hl : pyLower l1 = pyLower l2) :
    deriveJobId h (pyStrip t1) (pyStrip c1) (pyStrip l1) =
      deriveJobId h (pyStrip t2) (pyStrip c2) (pyStrip l2) := by
  have key : ∀ x y : String, pyLower x = pyLower y →
      pyLowerL (pyStrip x).data = pyLowerL (pyStrip y).data := by
    intro x y hxy
    have hdata : pyLowerL x.data = pyLowerL y.data := congrArg String.data hxy
    show pyLowerL (pyStripL x.data) = pyLowerL (pyStripL y.data)
    rw [← pyStripL_pyLowerL, ← pyStripL_pyLowerL, hdata]
  unfold deriveJobId
  congr 1
  apply congrArg String.mk
  rw [show ((pyStrip c1).data ++ '|' :: (pyStrip t1).data ++ '|' :: (pyStrip l1).data =
      (pyStrip c1).data ++ ['|'] ++ (pyStrip t1).data ++ ['|'] ++ (pyStrip l1).data) from by simp,
    show ((pyStrip c2).data ++ '|' :: (pyStrip t2).data ++ '|' :: (pyStrip l2).data =
      (pyStrip c2).data ++ ['|'] ++ (pyStrip t2).data ++ ['|'] ++ (pyStrip l2).data) from by simp]
  rw [pyLowerL_append, pyLowerL_append, pyLowerL_append, pyLowerL_append,
    pyLowerL_append, pyLowerL_append, pyLowerL_append, pyLowerL_append,
    key _ _ ht, key _ _ hc, key _ _ hl]

theorem addJobs_pair_of_same_id (h : String → String) (r1 r2 : RawJob)
    (hid : (normalize h r1).job_id = (normalize h r2).job_id) :
    addJobs h [r1, r2] [] =
      [{ job_id := (normalize h r1).job_id, raw_data := r1, state := .FETCHED }] := by
  simp [addJobs, ← hid]

theorem addJobs_existing_noop (h : String → String) (raw : RawJob) (s : Store)
    (hex : s.any (fun r => r.job_id = (normalize h raw).job_id) = true) :
    addJobs h [raw] s = s := by
  simp only [addJobs, List.foldl]
  rw [if_pos hex]

theorem dropWhile_append_all {u l : List Char} (hu : ∀ c ∈ u, isPySpace c = true) :
    (u ++ l).dropWhile isPySpace = l.dropWhile isPySpace := by
  induction u with
  | nil => rfl
  | cons c rest ih =>
    have hc : isPySpace c = true := hu c (by simp)
    simp only [List.cons_append, List.dropWhile_cons, hc, if_pos]
    exact ih (fun d hd => hu d (by simp [hd]))

theorem dropWhile_all_nil {l : List Char} (hl : ∀ c ∈ l, isPySpace c = true) :
    l.dropWhile isPySpace = [] := by
  have := dropWhile_append_all (l := []) hl
  simpa using this

theorem dropWhile_append_of_witness {l : List Char} (v : List Char)
    (hw : ∃ x ∈ l, isPySpace x = false) :
    (l ++ v).dropWhile isPySpace = l.dropWhile isPySpace ++ v := by
  induction l with
  | nil =>
    rcases hw with ⟨x, hx, -⟩
    exact absurd hx (List.not_mem_nil x)
  | cons c rest ih =>
    cases hc : isPySpace c
    · simp [List.dropWhile_cons, hc]
    · rcases hw with ⟨x, hx, hxf⟩
      rcases List.mem_cons.mp hx with rfl | hxr
      · rw [hc] at hxf
        cases hxf
      · simp only [List.cons_append, List.dropWhile_cons, hc, if_pos]
        exact ih ⟨x, hxr, hxf⟩

theorem pyStripL_append_left {u l : List Char} (hu : ∀ c ∈ u, isPySpace c = true) :
    pyStripL (u ++ l) = pyStripL l := by
  unfold pyStripL
  rw [dropWhile_append_all hu]

theorem pyStripL_append_right {l v : List Char} (hv : ∀ c ∈ v, isPySpace c = true) :
    pyStripL (l ++ v) = pyStripL l := by
  by_cases hall : ∀ c ∈ l, isPySpace c = true
  · have h1 : (l ++ v).dropWhile isPySpace = [] :=
      dropWhile_all_nil (by
        intro c hc
        rcases List.mem_append.mp hc with h | h
        · exact hall c h
        · exact hv c h)
    have h2 : l.dropWhile isPySpace = [] := dropWhile_all_nil hall
    unfold pyStripL
    rw [h1, h2]
  · push_neg at hall
    rcases hall with ⟨x, hx, hxf⟩
    have hxf' : isPySpace x = false := by
      cases hxx : isPySpace x
      · rfl
      · exact absurd hxx hxf
    unfold pyStripL
    rw [dropWhile_append_of_witness v ⟨x, hx, hxf'⟩, List.reverse_append,
      dropWhile_append_all (by
        intro c hc
        exact hv c (List.mem_reverse.mp hc))]

theorem pyStripL_pad {u x v : List Char} (hu : ∀ c ∈ u, isPySpace c = true)
    (hv : ∀ c ∈ v, isPySpace c = true) :
    pyStripL (u ++ x ++ v) = pyStripL x := by
  rw [List.append_assoc, pyStripL_append_left hu, pyStripL_append_right hv]

/-- Two strings that differ only in surrounding whitespace and in letter case:
each is a whitespace padding of a common core, up to case. -/
theorem wsCaseVariant_strip_lower {a b : String} (hab : WsCaseVariant a b) :
    pyLowerL (pyStrip a).data = pyLowerL (pyStrip b).data := by
  rcases hab with ⟨u, u', v, v', x, y, hu, hu', hv, hv', ha, hb, hxy⟩
  show pyLowerL (pyStripL a.data) = pyLowerL (pyStripL b.data)
  rw [ha, hb, pyStripL_pad hu hu', pyStripL_pad hv hv',
    ← pyStripL_pyLowerL, ← pyStripL_pyLowerL, hxy]

theorem deriveJobId_of_strip_lower_eq (h : String → String) {t1 c1 l1 t2 c2 l2 : String}
    (ht : pyLowerL (pyStrip t1).data = pyLowerL (pyStrip t2).data)
    (hc : pyLowerL (pyStrip c1).data = pyLowerL (pyStrip c2).data)
    (hl : pyLowerL (pyStrip l1).data = pyLowerL (pyStrip l2).data) :
    deriveJobId h (pyStrip t1) (pyStrip c1) (pyStrip l1) =
      deriveJobId h (pyStrip t2) (pyStrip c2) (pyStrip l2) := by
  unfold deriveJobId
  congr 1
  apply congrArg String.mk
  rw [show ((pyStrip c1).data ++ '|' :: (pyStrip t1).data ++ '|' :: (pyStrip l1).data =
      (pyStrip c1).data ++ ['|'] ++ (pyStrip t1).data ++ ['|'] ++ (pyStrip l1).data) from by simp,
    show ((pyStrip c2).data ++ '|' :: (pyStrip t2).data ++ '|' :: (pyStrip l2).data =
      (pyStrip c2).data ++ ['|'] ++ (pyStrip t2).data ++ ['|'] ++ (pyStrip l2).data) from by simp]
  rw [pyLowerL_append, pyLowerL_append, pyLowerL_append, pyLowerL_append,
    pyLowerL_append, pyLowerL_append, pyLowerL_append, pyLowerL_append, ht, hc, hl]

/-- C6: insertion is idempotent.  Two raw postings with case-insensitively
equal company, title and location derive the same job id; inserting them into
an empty store yields exactly one record; inserting a posting whose job id is
already present leaves the store entirely unchanged (no second record, no
change to stage or payloads); and the job id is the hash of the lower-cased
"company|title|location" identity string of the stripped fields, hence
deterministic in those inputs. -/
theorem C6_idempotent_insertion (h : String → String) (r1 r2 raw : RawJob) (s : Store)
    (ht : pyLower r1.title = pyLower r2.title)
    (hc : pyLower r1.company = pyLower r2.company)
    (hl : pyLower r1.location = pyLower r2.location) :
    (normalize h r1).job_id = (normalize h r2).job_id ∧
    addJobs h [r1, r2] [] =
      [{ job_id := (normalize h r1).job_id, raw_data := r1, state := .FETCHED }] ∧
    (s.any (fun r => r.job_id = (normalize h raw).job_id) = true →
      addJobs h [raw] s = s) ∧
    (normalize h raw).job_id =
      h ⟨pyLowerL ((pyStrip raw.company).data ++ '|' :: (pyStrip raw.title).data ++
          '|' :: (pyStrip raw.location).data)⟩ := by
  have hid : (normalize h r1).job_id = (normalize h r2).job_id := by
    show deriveJobId h (pyStrip r1.title) (pyStrip r1.company) (pyStrip r1.location) =
      deriveJobId h (pyStrip r2.title) (pyStrip r2.company) (pyStrip r2.location)
    exact deriveJobId_of_lower_eq h ht hc hl
  exact ⟨hid, addJobs_pair_of_same_id h r1 r2 hid,
    fun hex => addJobs_existing_noop h raw s hex, rfl⟩

theorem C6_idempotent_insertion_witness :
    (normalize hashId rawCase1).job_id = (normalize hashId rawCase2).job_id ∧
    addJobs hashId [rawCase1, rawCase2] [] =
      [{ job_id := (normalize hashId rawCase1).job_id, raw_data := rawCase1,
         state := .FETCHED }] ∧
    addJobs hashId [rawCase1]
        (addJobs hashId [rawCase1, rawCase2] []) =
      addJobs hashId [rawCase1, rawCase2] [] := by
  have h := C6_idempotent_insertion hashId rawCase1 rawCase2 rawCase1
    (addJobs hashId [rawCase1, rawCase2] []) (by decide) (by decide) (by decide)
  exact ⟨h.1, h.2.1, h.2.2.1 (by decide)⟩

/-- C10: the normalizer strips surrounding whitespace from title, company and
location before deriving the job id, so postings differing only in
surrounding whitespace or letter case in those fields derive the same job id
and collapse to a single record on insertion; a whitespace-only location
strips to empty and defaults to "remote". -/
theorem C10_whitespace_stripping_collapse (h : String → String) (r1 r2 raw : RawJob)
    (ht : WsCaseVariant r1.title r2.title)
    (hcm : WsCaseVariant r1.company r2.company)
    (hlc : WsCaseVariant r1.location r2.location) :
    (normalize h r1).job_id = (normalize h r2).job_id ∧
    addJobs h [r1, r2] [] =
      [{ job_id := (normalize h r1).job_id, raw_data := r1, state := .FETCHED }] ∧
    ((∀ c ∈ raw.location.data, isPySpace c = true) →
      (normalize h raw).location = "remote") := by
  have hid : (normalize h r1).job_id = (normalize h r2).job_id := by
    show deriveJobId h (pyStrip r1.title) (pyStrip r1.company) (pyStrip r1.location) =
      deriveJobId h (pyStrip r2.title) (pyStrip r2.company) (pyStrip r2.location)
    exact deriveJobId_of_strip_lower_eq h (wsCaseVariant_strip_lower ht)
      (wsCaseVariant_strip_lower hcm) (wsCaseVariant_strip_lower hlc)
  refine ⟨hid, addJobs_pair_of_same_id h r1 r2 hid, ?_⟩
  intro hws
  show (if pyStrip raw.location = "" then "remote" else pyStrip raw.location) = "remote"
  have hnil : pyStripL raw.location.data = [] := by
    unfold pyStripL
    rw [dropWhile_all_nil hws]
    rfl
  have hs : pyStrip raw.location = "" := by
    show (⟨pyStripL raw.location.data⟩ : String) = ""
    rw [hnil]
  rw [hs]
  rfl

theorem C10_whitespace_stripping_collapse_witness :
    (normalize hashId rawWs1).job_id = (normalize hashId rawWs2).job_id ∧
    addJobs hashId [rawWs1, rawWs2] [] =
      [{ job_id := (normalize hashId rawWs1).job_id, raw_data := rawWs1,
         state := .FETCHED }] ∧
    (normalize hashId rawWs1).location = "remote" := by
  have h := C10_whitespace_stripping_collapse hashId rawWs1 rawWs2 rawWs1
    ⟨[' '], [' '], [], [], ['D', 'e', 'v'], ['d', 'e', 'v'],
      by decide, by decide, by decide, by decide, by decide, by decide, by decide⟩
    ⟨[], [], [' '], [' '], ['A', 'c', 'm', 'e'], ['A', 'C', 'M', 'E'],
      by decide, by decide, by decide, by decide, by decide, by decide, by decide⟩
    ⟨[' ', ' ', ' '], [], [], [], [], [],
      by decide, by decide, by decide, by decide, by decide, by decide, by decide⟩
  exact ⟨h.1, h.2.1, h.2.2 (by decide)⟩

theorem getNextRow_mem {s : Store} {row : JobRow} (hgn : getNextRow s = some row) :
    row ∈ s ∧ isFinished row.state = false := by
  refine ⟨List.mem_of_find?_eq_some hgn, ?_⟩
  have := List.find?_some hgn
  simpa using this

theorem getNextRow_none {s : Store} (hgn : getNextRow s = none) :
    ∀ r ∈ s, isFinished r.state = true := by
  intro r hr
  have := List.find?_eq_none.mp hgn r hr
  simpa using this

theorem applyUpdate_job_id (u : RowUpdate) (r : JobRow) :
    (applyUpdate u r).job_id = r.job_id := rfl

theorem step_raised_eq (h : String → String) (profile : CandidateProfile)
    (inv : ResumeInventory) (o : StepOracle) (s s' : Store)
    (hst : step h profile inv o s = .raised s') : s' = s := by
  unfold step at hst
  cases hgn : getNextRow s <;> rw [hgn] at hst
  · simp at hst
  · rename_i row
    cases hrs : row.state <;> simp only [hrs] at hst <;>
      repeat' split at hst
    all_goals first
      | (injection hst with h1; exact h1.symm)
      | simp at hst

theorem step_ok_shape (h : String → String) (profile : CandidateProfile)
    (inv : ResumeInventory) (o : StepOracle) (s s' : Store) (b : Bool)
    (hst : step h profile inv o s = .ok s' b) :
    (s' = s ∧ b = false ∧
      (getNextRow s = none ∨ ∃ row, getNextRow s = some row ∧ row.state = .HUMAN_REVIEW)) ∨
    (b = true ∧ ∃ row u, getNextRow s = some row ∧ allowedUpdate h profile inv row u ∧
      s' = updateJob row.job_id u s) := by
  unfold step at hst
  cases hgn : getNextRow s <;> rw [hgn] at hst
  · injection hst with h1 h2
    exact Or.inl ⟨h1.symm, h2.symm, Or.inl rfl⟩
  · rename_i row
    cases hrs : row.state
    case FETCHED =>
      simp only [hrs] at hst
      split at hst
      · exact absurd hst (by simp)
      · injection hst with h1 h2
        subst h1; subst h2
        exact Or.inr ⟨rfl, row, _, rfl, Or.inl ⟨hrs, rfl⟩, rfl⟩
    case NORMALIZED =>
      simp only [hrs] at hst
      split at hst
      · exact absurd hst (by simp)
      · rename_i job heq
        split at hst
        · exact absurd hst (by simp)
        · injection hst with h1 h2
          subst h1; subst h2
          exact Or.inr ⟨rfl, row, _, rfl,
            Or.inr (Or.inl ⟨job, hrs, heq, rfl⟩), rfl⟩
    case EVALUATED =>
      simp only [hrs] at hst
      split at hst
      · exact absurd hst (by simp)
      · rename_i d heq
        split at hst
        · rename_i hskip
          injection hst with h1 h2
          subst h1; subst h2
          exact Or.inr ⟨rfl, row, _, rfl,
            Or.inr (Or.inr (Or.inl ⟨d, hrs, heq, Or.inl ⟨hskip, rfl⟩⟩)), rfl⟩
        · rename_i hnskip
          split at hst
          · rename_i hhr
            injection hst with h1 h2
            subst h1; subst h2
            exact Or.inr ⟨rfl, row, _, rfl,
              Or.inr (Or.inr (Or.inl ⟨d, hrs, heq, Or.inr (Or.inl ⟨hhr, rfl⟩)⟩)), rfl⟩
          · rename_i hnhr
            injection hst with h1 h2
            subst h1; subst h2
            exact Or.inr ⟨rfl, row, _, rfl,
              Or.inr (Or.inr (Or.inl ⟨d, hrs, heq,
                Or.inr (Or.inr ⟨hnskip, hnhr, rfl⟩)⟩)), rfl⟩
    case PLANNED =>
      simp only [hrs] at hst
      split at hst
      · rename_i job d heqn heqd
        split at hst
        · exact absurd hst (by simp)
        · injection hst with h1 h2
          subst h1; subst h2
          exact Or.inr ⟨rfl, row, _, rfl,
            Or.inr (Or.inr (Or.inr (Or.inl ⟨job, d, hrs, heqn, heqd, rfl⟩))), rfl⟩
      · exact absurd hst (by simp)
    case MATERIAL_READY =>
      simp only [hrs] at hst
      split at hst
      · rename_i job pl heqn heqp
        split at hst
        · rename_i happ
          injection hst with h1 h2
          subst h1; subst h2
          exact Or.inr ⟨rfl, row, _, rfl,
            Or.inr (Or.inr (Or.inr (Or.inr ⟨pl, hrs, heqp, Or.inl ⟨by simpa using happ, rfl⟩⟩))), rfl⟩
        · rename_i hnapp
          have happ : pl.apply = true := by
            revert hnapp
            cases pl.apply <;> simp
          split at hst
          · exact absurd hst (by simp)
          · split at hst
            · exact absurd hst (by simp)
            · split at hst
              · exact absurd hst (by simp)
              · split at hst
                · split at hst
                  · exact absurd hst (by simp)
                  · split at hst
                    · exact absurd hst (by simp)
                    · split at hst
                      · exact absurd hst (by simp)
                      · split at hst
                        · exact absurd hst (by simp)
                        · injection hst with h1 h2
                          subst h1; subst h2
                          exact Or.inr ⟨rfl, row, _, rfl,
                            Or.inr (Or.inr (Or.inr (Or.inr ⟨pl, hrs, heqp,
                              Or.inr ⟨happ, Or.inl rfl⟩⟩))), rfl⟩
                · injection hst with h1 h2
                  subst h1; subst h2
                  exact Or.inr ⟨rfl, row, _, rfl,
                    Or.inr (Or.inr (Or.inr (Or.inr ⟨pl, hrs, heqp,
                      Or.inr ⟨happ, Or.inr rfl⟩⟩))), rfl⟩
      · exact absurd hst (by simp)
    case SKIPPED =>
      simp only [hrs] at hst
      injection hst with h1 h2
      subst h1; subst h2
      exact Or.inl ⟨rfl, rfl, Or.inr ⟨row, rfl, by
        have := (getNextRow_mem hgn).2
        rw [hrs] at this
        simp [isFinished] at this⟩⟩
    case HUMAN_REVIEW =>
      simp only [hrs] at hst
      injection hst with h1 h2
      subst h1; subst h2
      exact Or.inl ⟨rfl, rfl, Or.inr ⟨row, rfl, hrs⟩⟩
    case SUBMITTED =>
      simp only [hrs] at hst
      injection hst with h1 h2
      subst h1; subst h2
      exact Or.inl ⟨rfl, rfl, Or.inr ⟨row, rfl, by
        have := (getNextRow_mem hgn).2
        rw [hrs] at this
        simp [isFinished] at this⟩⟩

theorem updateJob_map_id (jid : String) (u : RowUpdate) (s : Store) :
    (updateJob jid u s).map JobRow.job_id = s.map JobRow.job_id := by
  unfold updateJob
  rw [List.map_map]
  apply List.map_congr_left
  intro r _
  by_cases hj : r.job_id = jid <;> simp [Function.comp, hj, applyUpdate_job_id]

theorem findRow_updateJob (jid : String) (u : RowUpdate) (s : Store) (j : String) :
    findRow j (updateJob jid u s) =
      (findRow j s).map (fun r => if r.job_id = jid then applyUpdate u r else r) := by
  induction s with
  | nil => rfl
  | cons r rest ih =>
    have hpres : (if r.job_id = jid then applyUpdate u r else r).job_id = r.job_id := by
      by_cases h2 : r.job_id = jid <;> simp [h2, applyUpdate_job_id]
    show List.find? _ ((if r.job_id = jid then applyUpdate u r else r) :: updateJob jid u rest) = _
    by_cases hj : r.job_id = j
    · rw [List.find?_cons_of_pos _ (by simpa [hpres] using hj),
        show findRow j (r :: rest) = some r from List.find?_cons_of_pos _ (by simpa using hj)]
      rfl
    · rw [List.find?_cons_of_neg _ (by simpa [hpres] using hj)]
      have h2 : findRow j (r :: rest) = findRow j rest :=
        List.find?_cons_of_neg _ (by simpa using hj)
      rw [show (List.find? (fun r => decide (r.job_id = j)) (updateJob jid u rest) : Option JobRow) =
          findRow j (updateJob jid u rest) from rfl, ih, h2]

theorem nodup_unique_id {s : Store} (hnd : (s.map JobRow.job_id).Nodup)
    {a b : JobRow} (ha : a ∈ s) (hb : b ∈ s) (hid : a.job_id = b.job_id) : a = b :=
  List.inj_on_of_nodup_map hnd ha hb hid

theorem mem_updateJob {jid : String} {u : RowUpdate} {s : Store} {r' : JobRow}
    (hm : r' ∈ updateJob jid u s) :
    ∃ r ∈ s, r' = if r.job_id = jid then applyUpdate u r else r := by
  unfold updateJob at hm
  rcases List.mem_map.mp hm with ⟨r, hr, hre⟩
  exact ⟨r, hr, hre.symm⟩

theorem evaluate_rec_mem (profile : CandidateProfile) (job : Job) :
    (evaluate profile job).recommendation = "skip" ∨
    (evaluate profile job).recommendation = "human_review" ∨
    (evaluate profile job).recommendation = "apply" := by
  rw [evaluate_recommendation_eq]
  split_ifs <;> simp

theorem pyRoundCenti_ge_fdiv (q : Rat) :
    Int.fdiv (100 * q.num) (q.den : Int) ≤ pyRoundCenti q := by
  simp only [pyRoundCenti]
  split_ifs <;> omega

theorem pyRound2_ge_half {q : Rat} (hq : 7/10 ≤ q) : mkRat 1 2 ≤ pyRound2 q := by
  have hdpos : (0 : Int) < (q.den : Int) := by exact_mod_cast q.den_pos
  have hnum : 7 * (q.den : Int) ≤ 10 * q.num := by
    have h2 : (7 : Rat)/10 ≤ (q.num : Rat)/(q.den : Rat) := by
      rw [Rat.num_div_den]
      exact hq
    rw [div_le_div_iff (by norm_num) (by exact_mod_cast q.den_pos)] at h2
    exact_mod_cast (by linarith : (7 : Rat) * (q.den : Rat) ≤ 10 * (q.num : Rat))
  have hf : (70 : Int) ≤ Int.fdiv (100 * q.num) (q.den : Int) := by
    rw [Int.fdiv_eq_ediv _ (le_of_lt hdpos)]
    rw [Int.le_ediv_iff_mul_le hdpos]
    linarith
  have hc : (50 : Int) ≤ pyRoundCenti q :=
    le_trans (by omega) (le_trans hf (pyRoundCenti_ge_fdiv q))
  unfold pyRound2
  rw [Rat.mkRat_eq_div, Rat.mkRat_eq_div]
  rw [div_le_div_iff (by norm_num) (by norm_num)]
  have hcq : (50 : Rat) ≤ (pyRoundCenti q : Rat) := by exact_mod_cast hc
  push_cast
  linarith

theorem evaluate_apply_facts (profile : CandidateProfile) (job : Job)
    (hrec : (evaluate profile job).recommendation = "apply") :
    (evaluate profile job).pass_hard_filter = true ∧
    mkRat 1 2 ≤ (evaluate profile job).match_score := by
  rw [evaluate_recommendation_eq] at hrec
  by_cases h1 : (evaluate profile job).pass_hard_filter = false ∨ evalScore profile job = 0
  · rw [if_pos h1] at hrec
    simp at hrec
  · rw [if_neg h1] at hrec
    by_cases h2 : 7/10 ≤ evalScore profile job
    · push_neg at h1
      constructor
      · have := h1.1
        revert this
        cases (evaluate profile job).pass_hard_filter <;> simp
      · rw [evaluate_match_score_eq]
        exact pyRound2_ge_half h2
    · rw [if_neg h2] at hrec
      split_ifs at hrec <;> simp at hrec

theorem plan_apply_true (job : Job) (d : Decision) (inv : ResumeInventory)
    (hpass : d.pass_hard_filter = true) (hrec : d.recommendation = "apply")
    (hsc : mkRat 1 2 ≤ d.match_score) : (plan (mkRat 1 2) job d inv).apply = true := by
  unfold plan
  rw [if_neg (by simp [hpass]), if_neg (by simp [hrec]), if_neg (not_lt.mpr hsc)]

theorem allowedUpdate_rank {h : String → String} {profile : CandidateProfile}
    {inv : ResumeInventory} {row : JobRow} {u : RowUpdate}
    (hau : allowedUpdate h profile inv row u) :
    ∃ st', u.state = some st' ∧ stateRank st' < stateRank row.state := by
  rcases hau with ⟨hrs, rfl⟩ | ⟨job, hrs, hn, rfl⟩ | ⟨d, hrs, hd, hcase⟩ |
    ⟨job, d, hrs, hn, hd, rfl⟩ | ⟨pl, hrs, hp, hcase⟩
  · exact ⟨_, rfl, by rw [hrs]; decide⟩
  · exact ⟨_, rfl, by rw [hrs]; decide⟩
  · rcases hcase with ⟨-, rfl⟩ | ⟨-, rfl⟩ | ⟨-, -, rfl⟩ <;>
      exact ⟨_, rfl, by rw [hrs]; decide⟩
  · exact ⟨_, rfl, by rw [hrs]; decide⟩
  · rcases hcase with ⟨-, rfl⟩ | ⟨-, rfl | rfl⟩ <;>
      exact ⟨_, rfl, by rw [hrs]; decide⟩

theorem option_some_inj {α} {a b : α} (h : some a = some b) : a = b := by
  injection h

theorem recordInv_applyUpdate {h : String → String} {profile : CandidateProfile}
    {inv : ResumeInventory} {row : JobRow} {u : RowUpdate}
    (hrow : RecordInv h profile inv row) (hau : allowedUpdate h profile inv row u) :
    RecordInv h profile inv (applyUpdate u row) := by
  rcases hau with ⟨hrs, rfl⟩ | ⟨job, hrs, hn, rfl⟩ | ⟨d, hrs, hd, hcase⟩ |
    ⟨job, d, hrs, hn, hd, rfl⟩ | ⟨pl, hrs, hp, hcase⟩
  · -- FETCHED -> NORMALIZED
    simp only [RecordInv, hrs] at hrow
    exact ⟨rfl, hrow.2.1, hrow.2.2⟩
  · -- NORMALIZED -> EVALUATED
    simp only [RecordInv, hrs] at hrow
    have hjob : job = normalize h row.raw_data := by
      apply option_some_inj
      rw [← hn, hrow.1]
    subst hjob
    exact ⟨hrow.1, rfl, hrow.2.2⟩
  · -- EVALUATED -> SKIPPED / HUMAN_REVIEW / PLANNED
    simp only [RecordInv, hrs] at hrow
    have hdv : d = evaluate profile (normalize h row.raw_data) := by
      apply option_some_inj
      rw [← hd, hrow.2.1]
    subst hdv
    rcases hcase with ⟨hb, rfl⟩ | ⟨hb, rfl⟩ | ⟨hb1, hb2, rfl⟩
    · exact ⟨hrow.1, hrow.2.1, hb, hrow.2.2⟩
    · exact ⟨hrow.1, hrow.2.1, Or.inl ⟨hb, hrow.2.2⟩⟩
    · rcases evaluate_rec_mem profile (normalize h row.raw_data) with hr | hr | hr
      · exact absurd hr hb1
      · exact absurd hr hb2
      · exact ⟨hrow.1, hrow.2.1, hr, hrow.2.2⟩
  · -- PLANNED -> MATERIAL_READY
    simp only [RecordInv, hrs] at hrow
    have hjob : job = normalize h row.raw_data := by
      apply option_some_inj
      rw [← hn, hrow.1]
    have hdv : d = evaluate profile (normalize h row.raw_data) := by
      apply option_some_inj
      rw [← hd, hrow.2.1]
    subst hjob
    subst hdv
    exact ⟨hrow.1, hrow.2.1, hrow.2.2.1, rfl⟩
  · -- MATERIAL_READY -> SKIPPED / SUBMITTED / HUMAN_REVIEW
    simp only [RecordInv, hrs] at hrow
    have hpl : pl = plan (mkRat 1 2) (normalize h row.raw_data)
        (evaluate profile (normalize h row.raw_data)) inv := by
      apply option_some_inj
      rw [← hp, hrow.2.2.2]
    have happly : pl.apply = true := by
      rw [hpl]
      exact plan_apply_true _ _ _
        (evaluate_apply_facts profile (normalize h row.raw_data) hrow.2.2.1).1
        hrow.2.2.1
        (evaluate_apply_facts profile (normalize h row.raw_data) hrow.2.2.1).2
    rcases hcase with ⟨hb, rfl⟩ | ⟨hb, rfl | rfl⟩
    · rw [happly] at hb
      cases hb
    · exact ⟨hrow.1, hrow.2.1, hrow.2.2.1, hrow.2.2.2⟩
    · exact ⟨hrow.1, hrow.2.1, Or.inr ⟨hrow.2.2.1, hrow.2.2.2⟩⟩

theorem storeInv_addJobs {h : String → String} {profile : CandidateProfile}
    {inv : ResumeInventory} {s : Store} (hinv : StoreInv h profile inv s)
    (raws : List RawJob) : StoreInv h profile inv (addJobs h raws s) := by
  induction raws generalizing s with
  | nil => exact hinv
  | cons raw rest ih =>
    show StoreInv h profile inv (addJobs h rest _)
    apply ih
    by_cases hex : s.any (fun r => r.job_id = (normalize h raw).job_id) = true
    · simpa [hex] using hinv
    · have hex' : s.any (fun r => r.job_id = (normalize h raw).job_id) = false := by
        revert hex
        cases s.any (fun r => r.job_id = (normalize h raw).job_id) <;> simp
      have hnotin : ∀ r ∈ s, r.job_id ≠ (normalize h raw).job_id := by
        intro r hr
        have := List.any_eq_false.mp hex' r hr
        simpa using this
      show StoreInv h profile inv
        (if (s.any fun r => r.job_id = (normalize h raw).job_id) = true then s
         else s ++
          [{ job_id := (normalize h raw).job_id, raw_data := raw, state := .FETCHED }])
      rw [if_neg hex]
      constructor
      · rw [List.map_append]
        rw [List.nodup_append]
        refine ⟨hinv.1, List.nodup_singleton _, ?_⟩
        intro x hx
        rcases List.mem_map.mp hx with ⟨r, hr, rfl⟩
        simp only [List.map_cons, List.map_nil, List.mem_singleton]
        exact fun hc => hnotin r hr (by simpa using hc)
      · intro r hr
        rcases List.mem_append.mp hr with hr | hr
        · exact hinv.2 r hr
        · have hre : r =
              { job_id := (normalize h raw).job_id, raw_data := raw, state := .FETCHED } := by
            simpa using hr
          subst hre
          exact ⟨rfl, rfl, rfl⟩

theorem storeInv_step {h : String → String} {profile : CandidateProfile}
    {inv : ResumeInventory} {o : StepOracle} {s s' : Store} {b : Bool}
    (hinv : StoreInv h profile inv s) (hst : step h profile inv o s = .ok s' b) :
    StoreInv h profile inv s' := by
  rcases step_ok_shape h profile inv o s s' b hst with ⟨rfl, -, -⟩ | ⟨-, row, u, hgn, hau, rfl⟩
  · exact hinv
  · have hrowmem := (getNextRow_mem hgn).1
    constructor
    · rw [updateJob_map_id]
      exact hinv.1
    · intro r' hr'
      rcases mem_updateJob hr' with ⟨r, hr, rfl⟩
      by_cases hj : r.job_id = row.job_id
      · have heq : r = row := nodup_unique_id hinv.1 hr hrowmem hj
        subst heq
        rw [if_pos hj]
        exact recordInv_applyUpdate (hinv.2 r hr) hau
      · rw [if_neg hj]
        exact hinv.2 r hr

theorem storeInv_stepStore {h : String → String} {profile : CandidateProfile}
    {inv : ResumeInventory} (o : StepOracle) {s : Store}
    (hinv : StoreInv h profile inv s) :
    StoreInv h profile inv (stepStore h profile inv o s) := by
  unfold stepStore
  cases hst : step h profile inv o s with
  | ok s' b => exact storeInv_step hinv hst
  | raised s' =>
    rw [step_raised_eq h profile inv o s s' hst]
    exact hinv

theorem storeInv_nil (h : String → String) (profile : CandidateProfile)
    (inv : ResumeInventory) : StoreInv h profile inv [] :=
  ⟨List.nodup_nil, by intro r hr; cases hr⟩

theorem step_rank_lt {h : String → String} {profile : CandidateProfile}
    {inv : ResumeInventory} {o : StepOracle} {s s' : Store}
    (hinv : StoreInv h profile inv s) (hst : step h profile inv o s = .ok s' true) :
    storeRank s' < storeRank s := by
  rcases step_ok_shape h profile inv o s s' true hst with ⟨-, hbf, -⟩ | ⟨-, row, u, hgn, hau, rfl⟩
  · cases hbf
  · have hrowmem := (getNextRow_mem hgn).1
    rcases allowedUpdate_rank hau with ⟨st', hust, hlt⟩
    unfold storeRank updateJob
    rw [List.map_map]
    apply List.sum_lt_sum
    · intro r hr
      by_cases hj : r.job_id = row.job_id
      · have heq : r = row := nodup_unique_id hinv.1 hr hrowmem hj
        subst heq
        simp only [Function.comp, if_pos hj, applyUpdate, hust, Option.getD]
        exact le_of_lt hlt
      · simp [Function.comp, if_neg hj]
    · refine ⟨row, hrowmem, ?_⟩
      simp only [Function.comp, if_pos rfl, applyUpdate, hust, Option.getD]
      exact hlt

theorem step_HR {h : String → String} {profile : CandidateProfile} {inv : ResumeInventory}
    {o : StepOracle} {s : Store} {row : JobRow} (hgn : getNextRow s = some row)
    (hhr : row.state = .HUMAN_REVIEW) : step h profile inv o s = .ok s false := by
  unfold step
  rw [hgn]
  simp only [hhr]

theorem step_progress {h : String → String} {profile : CandidateProfile}
    {inv : ResumeInventory} {o : StepOracle} {s : Store} {row : JobRow}
    (hinv : StoreInv h profile inv s) (hnr : NoRaise o) (hgn : getNextRow s = some row)
    (hhr : row.state ≠ .HUMAN_REVIEW) :
    ∃ s', step h profile inv o s = .ok s' true := by
  obtain ⟨hn1, hn2, hn3, hn4, hn5, hn6, hn7, hn8, hn9, hn10⟩ := hnr
  have hrowmem := (getNextRow_mem hgn).1
  have hrowfin := (getNextRow_mem hgn).2
  have hrowinv := hinv.2 row hrowmem
  unfold step
  rw [hgn]
  cases hrs : row.state
  case FETCHED =>
    simp only [hrs, hn1]
    exact ⟨_, rfl⟩
  case NORMALIZED =>
    simp only [RecordInv, hrs] at hrowinv
    simp only [hrs, hrowinv.1, hn2]
    exact ⟨_, rfl⟩
  case EVALUATED =>
    simp only [RecordInv, hrs] at hrowinv
    simp only [hrs, hrowinv.2.1]
    by_cases h1 : (evaluate profile (normalize h row.raw_data)).recommendation = "skip"
    · simp only [h1]
      exact ⟨_, rfl⟩
    · by_cases h2 : (evaluate profile (normalize h row.raw_data)).recommendation = "human_review"
      · simp only [if_neg h1, h2]
        exact ⟨_, rfl⟩
      · simp only [if_neg h1, if_neg h2]
        exact ⟨_, rfl⟩
  case PLANNED =>
    simp only [RecordInv, hrs] at hrowinv
    simp only [hrs, hrowinv.1, hrowinv.2.1, hn3]
    exact ⟨_, rfl⟩
  case MATERIAL_READY =>
    simp only [RecordInv, hrs] at hrowinv
    simp only [hrs, hrowinv.1, hrowinv.2.2.2]
    by_cases happ : (plan (mkRat 1 2) (normalize h row.raw_data)
        (evaluate profile (normalize h row.raw_data)) inv).apply = false
    · simp only [happ]
      exact ⟨_, rfl⟩
    · simp only [if_neg happ, hn4, hn5, hn6]
      by_cases hc : o.confirmResult = true
      · simp only [hc, hn7, hn8, hn9, hn10]
        exact ⟨_, rfl⟩
      · have hc' : o.confirmResult = false := by
          revert hc
          cases o.confirmResult <;> simp
        simp only [hc']
        exact ⟨_, rfl⟩
  case SKIPPED =>
    rw [hrs] at hrowfin
    simp [isFinished] at hrowfin
  case HUMAN_REVIEW => exact absurd hrs hhr
  case SUBMITTED =>
    rw [hrs] at hrowfin
    simp [isFinished] at hrowfin

theorem isFinished_iff (st : JobState) :
    isFinished st = true ↔ st = .SUBMITTED ∨ st = .SKIPPED := by
  cases st <;> simp [isFinished]

theorem runFuel_drains {h : String → String} {profile : CandidateProfile}
    {inv : ResumeInventory} {os : Nat → StepOracle} (hnr : ∀ n, NoRaise (os n)) :
    ∀ fuel s, StoreInv h profile inv s → storeRank s < fuel →
    ∃ s', runFuel h profile inv os fuel s = .ok s' ∧ StoreInv h profile inv s' ∧
      (getNextRow s' = none ∨ ∃ r, getNextRow s' = some r ∧ r.state = .HUMAN_REVIEW) := by
  intro fuel
  induction fuel with
  | zero =>
    intro s _ hf
    omega
  | succ n ih =>
    intro s hinv hf
    cases hgn : getNextRow s with
    | none =>
      have hstep : step h profile inv (os n) s = .ok s false := by
        unfold step
        rw [hgn]
      refine ⟨s, ?_, hinv, Or.inl hgn⟩
      unfold runFuel
      rw [hstep]
    | some row =>
      by_cases hhr : row.state = .HUMAN_REVIEW
      · have hstep : step h profile inv (os n) s = .ok s false := step_HR hgn hhr
        refine ⟨s, ?_, hinv, Or.inr ⟨row, hgn, hhr⟩⟩
        unfold runFuel
        rw [hstep]
      · obtain ⟨s1, hstep⟩ := step_progress hinv (hnr n) hgn hhr
        have hinv1 := storeInv_step hinv hstep
        have hrank := step_rank_lt hinv hstep
        obtain ⟨s', hrun, hinv', hend⟩ := ih s1 hinv1 (by omega)
        refine ⟨s', ?_, hinv', hend⟩
        unfold runFuel
        rw [hstep]
        exact hrun



theorem execStores_eq_cons (h : String → String) (profile : CandidateProfile)
    (inv : ResumeInventory) (os : List StepOracle) (s : Store) :
    ∃ t, execStores h profile inv os s = s :: t := by
  cases os <;> exact ⟨_, rfl⟩

theorem execStores_inv {h : String → String} {profile : CandidateProfile}
    {inv : ResumeInventory} {os : List StepOracle} {s st : Store}
    (hinv : StoreInv h profile inv s) (hmem : st ∈ execStores h profile inv os s) :
    StoreInv h profile inv st := by
  induction os generalizing s with
  | nil =>
    simp only [execStores, List.mem_singleton] at hmem
    subst hmem
    exact hinv
  | cons o os ih =>
    simp only [execStores, List.mem_cons] at hmem
    rcases hmem with rfl | hmem
    · exact hinv
    · exact ih (storeInv_stepStore o hinv) hmem

theorem execStores_suffix {h : String → String} {profile : CandidateProfile}
    {inv : ResumeInventory} {os : List StepOracle} {s st : Store}
    (hmem : st ∈ execStores h profile inv os s) :
    ∃ os', execFinal h profile inv os s = execFinal h profile inv os' st := by
  induction os generalizing s with
  | nil =>
    simp only [execStores, List.mem_singleton] at hmem
    subst hmem
    exact ⟨[], rfl⟩
  | cons o os ih =>
    simp only [execStores, List.mem_cons] at hmem
    rcases hmem with rfl | hmem
    · exact ⟨o :: os, rfl⟩
    · exact ih hmem

theorem findRow_mem {j : String} {s : Store} {r : JobRow} (hf : findRow j s = some r) :
    r ∈ s :=
  List.mem_of_find?_eq_some hf

theorem findRow_id {j : String} {s : Store} {r : JobRow} (hf : findRow j s = some r) :
    r.job_id = j := by
  have := List.find?_some hf
  simpa using this

theorem stepStore_findRow_fwd {h : String → String} {profile : CandidateProfile}
    {inv : ResumeInventory} (o : StepOracle) {s : Store} {j : String} {r : JobRow}
    (hf : findRow j s = some r) :
    ∃ r', findRow j (stepStore h profile inv o s) = some r' := by
  unfold stepStore
  cases hst : step h profile inv o s with
  | raised s' =>
    rw [step_raised_eq h profile inv o s s' hst]
    exact ⟨r, hf⟩
  | ok s' b =>
    rcases step_ok_shape h profile inv o s s' b hst with ⟨rfl, -, -⟩ | ⟨-, row, u, -, -, rfl⟩
    · exact ⟨r, hf⟩
    · rw [findRow_updateJob, hf]
      exact ⟨_, rfl⟩

theorem stepStore_findRow_rev {h : String → String} {profile : CandidateProfile}
    {inv : ResumeInventory} (o : StepOracle) {s : Store} {j : String} {r' : JobRow}
    (hf' : findRow j (stepStore h profile inv o s) = some r') :
    ∃ r, findRow j s = some r := by
  revert hf'
  unfold stepStore
  cases hst : step h profile inv o s with
  | raised s' =>
    rw [step_raised_eq h profile inv o s s' hst]
    exact fun hf' => ⟨r', hf'⟩
  | ok s' b =>
    rcases step_ok_shape h profile inv o s s' b hst with ⟨rfl, -, -⟩ | ⟨-, row, u, -, -, rfl⟩
    · exact fun hf' => ⟨r', hf'⟩
    · rw [findRow_updateJob]
      cases hf : findRow j s with
      | none => intro hc; cases hc
      | some r => exact fun _ => ⟨r, rfl⟩

theorem stepStore_pairRel {h : String → String} {profile : CandidateProfile}
    {inv : ResumeInventory} (o : StepOracle) {s : Store}
    (hinv : StoreInv h profile inv s) {j : String} {r r' : JobRow}
    (hf : findRow j s = some r) (hf' : findRow j (stepStore h profile inv o s) = some r') :
    (stageRank r.state ≤ stageRank r'.state ∨
      (r.state = .MATERIAL_READY ∧ r'.state = .HUMAN_REVIEW)) ∧
    (r'.normalized_data = r.normalized_data ∨
      (r.normalized_data = none ∧ r'.state = .NORMALIZED)) ∧
    (r'.decision_data = r.decision_data ∨
      (r.decision_data = none ∧ r'.state = .EVALUATED)) ∧
    (r'.plan_data = r.plan_data ∨
      (r.plan_data = none ∧ r'.state = .MATERIAL_READY)) := by
  have hid : ∀ x : JobRow, x = x → True := fun _ _ => trivial
  revert hf'
  unfold stepStore
  cases hst : step h profile inv o s with
  | raised s'' =>
    rw [step_raised_eq h profile inv o s s'' hst, hf]
    intro hf'
    injection hf' with hre
    subst hre
    exact ⟨Or.inl le_rfl, Or.inl rfl, Or.inl rfl, Or.inl rfl⟩
  | ok s'' b =>
    rcases step_ok_shape h profile inv o s s'' b hst with ⟨rfl, -, -⟩ | ⟨-, row, u, hgn, hau, rfl⟩
    · rw [hf]
      intro hf'
      injection hf' with hre
      subst hre
      exact ⟨Or.inl le_rfl, Or.inl rfl, Or.inl rfl, Or.inl rfl⟩
    · rw [findRow_updateJob, hf]
      intro hf'
      by_cases hj : r.job_id = row.job_id
      · have hrmem := findRow_mem hf
        have hrowmem := (getNextRow_mem hgn).1
        have heqr : r = row := nodup_unique_id hinv.1 hrmem hrowmem hj
        subst heqr
        have hfr : r' = applyUpdate u r := by
          simpa using hf'.symm
        subst hfr
        have hrinv := hinv.2 r hrmem
        rcases hau with ⟨hrs, rfl⟩ | ⟨job, hrs, hn, rfl⟩ | ⟨d, hrs, hd, hcase⟩ |
          ⟨job, d, hrs, hn, hd, rfl⟩ | ⟨pl, hrs, hp, hcase⟩
        · -- FETCHED -> NORMALIZED
          simp only [RecordInv, hrs] at hrinv
          refine ⟨Or.inl (by rw [hrs]; exact Nat.zero_le _), Or.inr ⟨hrinv.1, rfl⟩,
            Or.inl rfl, Or.inl rfl⟩
        · -- NORMALIZED -> EVALUATED
          simp only [RecordInv, hrs] at hrinv
          refine ⟨Or.inl ?_, Or.inl rfl, Or.inr ⟨hrinv.2.1, rfl⟩, Or.inl rfl⟩
          rw [hrs]
          show stageRank JobState.NORMALIZED ≤ stageRank JobState.EVALUATED
          decide
        · -- EVALUATED -> routing
          simp only [RecordInv, hrs] at hrinv
          rcases hcase with ⟨-, rfl⟩ | ⟨-, rfl⟩ | ⟨-, -, rfl⟩
          · refine ⟨Or.inl ?_, Or.inl rfl, Or.inl rfl, Or.inl rfl⟩
            rw [hrs]
            show stageRank JobState.EVALUATED ≤ stageRank JobState.SKIPPED
            decide
          · refine ⟨Or.inl ?_, Or.inl rfl, Or.inl rfl, Or.inl rfl⟩
            rw [hrs]
            show stageRank JobState.EVALUATED ≤ stageRank JobState.HUMAN_REVIEW
            decide
          · refine ⟨Or.inl ?_, Or.inl rfl, Or.inl rfl, Or.inl rfl⟩
            rw [hrs]
            show stageRank JobState.EVALUATED ≤ stageRank JobState.PLANNED
            decide
        · -- PLANNED -> MATERIAL_READY
          simp only [RecordInv, hrs] at hrinv
          refine ⟨Or.inl ?_, Or.inl rfl, Or.inl rfl, Or.inr ⟨hrinv.2.2.2, rfl⟩⟩
          rw [hrs]
          show stageRank JobState.PLANNED ≤ stageRank JobState.MATERIAL_READY
          decide
        · -- MATERIAL_READY -> SUBMITTED / HUMAN_REVIEW (SKIPPED is unreachable)
          simp only [RecordInv, hrs] at hrinv
          have hpl : pl = plan (mkRat 1 2) (normalize h r.raw_data)
              (evaluate profile (normalize h r.raw_data)) inv := by
            apply option_some_inj
            rw [← hp, hrinv.2.2.2]
          have happly : pl.apply = true := by
            rw [hpl]
            exact plan_apply_true _ _ _
              (evaluate_apply_facts profile (normalize h r.raw_data) hrinv.2.2.1).1
              hrinv.2.2.1
              (evaluate_apply_facts profile (normalize h r.raw_data) hrinv.2.2.1).2
          rcases hcase with ⟨hb, rfl⟩ | ⟨-, rfl | rfl⟩
          · rw [happly] at hb
            cases hb
          · refine ⟨Or.inl ?_, Or.inl rfl, Or.inl rfl, Or.inl rfl⟩
            rw [hrs]
            show stageRank JobState.MATERIAL_READY ≤ stageRank JobState.SUBMITTED
            decide
          · exact ⟨Or.inr ⟨hrs, rfl⟩, Or.inl rfl, Or.inl rfl, Or.inl rfl⟩
      · have hfr : r' = r := by
          simpa [hj] using hf'.symm
        subst hfr
        exact ⟨Or.inl le_rfl, Or.inl rfl, Or.inl rfl, Or.inl rfl⟩

theorem everInTrace_nil (h : String → String) (profile : CandidateProfile)
    (inv : ResumeInventory) (s : Store) (j : String) (p : JobRow → Bool) :
    everInTrace h profile inv [] s j p ↔ ∃ r, findRow j s = some r ∧ p r = true := by
  simp [everInTrace, execStores]

theorem everInTrace_cons (h : String → String) (profile : CandidateProfile)
    (inv : ResumeInventory) (o : StepOracle) (os : List StepOracle) (s : Store)
    (j : String) (p : JobRow → Bool) :
    everInTrace h profile inv (o :: os) s j p ↔
      ((∃ r, findRow j s = some r ∧ p r = true) ∨
        everInTrace h profile inv os (stepStore h profile inv o s) j p) := by
  simp [everInTrace, execStores]

theorem execFinal_presence {h : String → String} {profile : CandidateProfile}
    {inv : ResumeInventory} (os : List StepOracle) {s : Store} {j : String} {r : JobRow}
    (hinv : StoreInv h profile inv s) (hf : findRow j s = some r) :
    ∃ r', findRow j (execFinal h profile inv os s) = some r' ∧
      (r.normalized_data.isSome = true → r'.normalized_data = r.normalized_data) ∧
      (r.decision_data.isSome = true → r'.decision_data = r.decision_data) ∧
      (r.plan_data.isSome = true → r'.plan_data = r.plan_data) := by
  induction os generalizing s r with
  | nil => exact ⟨r, hf, fun _ => rfl, fun _ => rfl, fun _ => rfl⟩
  | cons o os ih =>
    obtain ⟨r1, hf1⟩ := stepStore_findRow_fwd o hf
    have hrel := stepStore_pairRel o hinv hf hf1
    obtain ⟨r', hf', h1, h2, h3⟩ := ih (storeInv_stepStore o hinv) hf1
    refine ⟨r', hf', ?_, ?_, ?_⟩
    · intro hsome
      have hn1 : r1.normalized_data = r.normalized_data := by
        rcases hrel.2.1 with he | ⟨hnone, -⟩
        · exact he
        · rw [hnone] at hsome
          cases hsome
      rw [h1 (by rw [hn1]; exact hsome), hn1]
    · intro hsome
      have hn1 : r1.decision_data = r.decision_data := by
        rcases hrel.2.2.1 with he | ⟨hnone, -⟩
        · exact he
        · rw [hnone] at hsome
          cases hsome
      rw [h2 (by rw [hn1]; exact hsome), hn1]
    · intro hsome
      have hn1 : r1.plan_data = r.plan_data := by
        rcases hrel.2.2.2 with he | ⟨hnone, -⟩
        · exact he
        · rw [hnone] at hsome
          cases hsome
      rw [h3 (by rw [hn1]; exact hsome), hn1]

theorem execFinal_norm_origin {h : String → String} {profile : CandidateProfile}
    {inv : ResumeInventory} (os : List StepOracle) {s : Store} {j : String} {r' : JobRow}
    (hinv : StoreInv h profile inv s)
    (hf' : findRow j (execFinal h profile inv os s) = some r')
    (hsome : r'.normalized_data.isSome = true) :
    (∃ r, findRow j s = some r ∧ r.normalized_data.isSome = true) ∨
      everInTrace h profile inv os s j (fun x => decide (x.state = .NORMALIZED)) := by
  induction os generalizing s with
  | nil => exact Or.inl ⟨r', hf', hsome⟩
  | cons o os ih =>
    rcases ih (storeInv_stepStore o hinv) hf' with ⟨r1, hf1, hsome1⟩ | hever
    · obtain ⟨r0, hf0⟩ := stepStore_findRow_rev o hf1
      have hrel := stepStore_pairRel o hinv hf0 hf1
      rcases hrel.2.1 with he | ⟨-, hstate⟩
      · exact Or.inl ⟨r0, hf0, by rw [← he]; exact hsome1⟩
      · refine Or.inr ((everInTrace_cons h profile inv o os s j _).mpr (Or.inr ?_))
        obtain ⟨t, ht⟩ := execStores_eq_cons h profile inv os (stepStore h profile inv o s)
        exact ⟨stepStore h profile inv o s, by rw [ht]; exact List.mem_cons_self _ _,
          r1, hf1, by simp [hstate]⟩
    · exact Or.inr ((everInTrace_cons h profile inv o os s j _).mpr (Or.inr hever))

theorem execFinal_dec_origin {h : String → String} {profile : CandidateProfile}
    {inv : ResumeInventory} (os : List StepOracle) {s : Store} {j : String} {r' : JobRow}
    (hinv : StoreInv h profile inv s)
    (hf' : findRow j (execFinal h profile inv os s) = some r')
    (hsome : r'.decision_data.isSome = true) :
    (∃ r, findRow j s = some r ∧ r.decision_data.isSome = true) ∨
      everInTrace h profile inv os s j (fun x => decide (x.state = .EVALUATED)) := by
  induction os generalizing s with
  | nil => exact Or.inl ⟨r', hf', hsome⟩
  | cons o os ih =>
    rcases ih (storeInv_stepStore o hinv) hf' with ⟨r1, hf1, hsome1⟩ | hever
    · obtain ⟨r0, hf0⟩ := stepStore_findRow_rev o hf1
      have hrel := stepStore_pairRel o hinv hf0 hf1
      rcases hrel.2.2.1 with he | ⟨-, hstate⟩
      · exact Or.inl ⟨r0, hf0, by rw [← he]; exact hsome1⟩
      · refine Or.inr ((everInTrace_cons h profile inv o os s j _).mpr (Or.inr ?_))
        obtain ⟨t, ht⟩ := execStores_eq_cons h profile inv os (stepStore h profile inv o s)
        exact ⟨stepStore h profile inv o s, by rw [ht]; exact List.mem_cons_self _ _,
          r1, hf1, by simp [hstate]⟩
    · exact Or.inr ((everInTrace_cons h profile inv o os s j _).mpr (Or.inr hever))

theorem execFinal_plan_origin {h : String → String} {profile : CandidateProfile}
    {inv : ResumeInventory} (os : List StepOracle) {s : Store} {j : String} {r' : JobRow}
    (hinv : StoreInv h profile inv s)
    (hf' : findRow j (execFinal h profile inv os s) = some r')
    (hsome : r'.plan_data.isSome = true) :
    (∃ r, findRow j s = some r ∧ r.plan_data.isSome = true) ∨
      everInTrace h profile inv os s j (fun x => decide (x.state = .MATERIAL_READY)) := by
  induction os generalizing s with
  | nil => exact Or.inl ⟨r', hf', hsome⟩
  | cons o os ih =>
    rcases ih (storeInv_stepStore o hinv) hf' with ⟨r1, hf1, hsome1⟩ | hever
    · obtain ⟨r0, hf0⟩ := stepStore_findRow_rev o hf1
      have hrel := stepStore_pairRel o hinv hf0 hf1
      rcases hrel.2.2.2 with he | ⟨-, hstate⟩
      · exact Or.inl ⟨r0, hf0, by rw [← he]; exact hsome1⟩
      · refine Or.inr ((everInTrace_cons h profile inv o os s j _).mpr (Or.inr ?_))
        obtain ⟨t, ht⟩ := execStores_eq_cons h profile inv os (stepStore h profile inv o s)
        exact ⟨stepStore h profile inv o s, by rw [ht]; exact List.mem_cons_self _ _,
          r1, hf1, by simp [hstate]⟩
    · exact Or.inr ((everInTrace_cons h profile inv o os s j _).mpr (Or.inr hever))

theorem recordInv_norm_some {h : String → String} {profile : CandidateProfile}
    {inv : ResumeInventory} {r : JobRow} (hr : RecordInv h profile inv r)
    (hrank : 1 ≤ stageRank r.state) : r.normalized_data.isSome = true := by
  cases hst : r.state <;> simp only [RecordInv, hst] at hr
  case FETCHED => rw [hst] at hrank; simp [stageRank] at hrank
  all_goals rw [hr.1]; rfl

theorem recordInv_dec_some {h : String → String} {profile : CandidateProfile}
    {inv : ResumeInventory} {r : JobRow} (hr : RecordInv h profile inv r)
    (hrank : 2 ≤ stageRank r.state) : r.decision_data.isSome = true := by
  cases hst : r.state <;> simp only [RecordInv, hst] at hr
  case FETCHED => rw [hst] at hrank; simp [stageRank] at hrank
  case NORMALIZED => rw [hst] at hrank; simp [stageRank] at hrank
  all_goals rw [hr.2.1]; rfl

theorem recordInv_plan_some {h : String → String} {profile : CandidateProfile}
    {inv : ResumeInventory} {r : JobRow} (hr : RecordInv h profile inv r)
    (hrank : 4 ≤ stageRank r.state) : r.plan_data.isSome = true := by
  cases hst : r.state <;> simp only [RecordInv, hst] at hr
  case MATERIAL_READY => rw [hr.2.2.2]; rfl
  case SUBMITTED => rw [hr.2.2.2]; rfl
  all_goals rw [hst] at hrank; simp [stageRank] at hrank

theorem ever_to_end_norm {h : String → String} {profile : CandidateProfile}
    {inv : ResumeInventory} {os : List StepOracle} {s : Store} {j : String} {r' : JobRow}
    (hinv : StoreInv h profile inv s)
    (hever : everInTrace h profile inv os s j (fun x => decide (1 ≤ stageRank x.state)))
    (hf' : findRow j (execFinal h profile inv os s) = some r') :
    r'.normalized_data.isSome = true := by
  obtain ⟨st, hstmem, r, hfr, hp⟩ := hever
  have hinvst := execStores_inv hinv hstmem
  have hrinv := hinvst.2 r (findRow_mem hfr)
  have hsome : r.normalized_data.isSome = true :=
    recordInv_norm_some hrinv (by simpa using hp)
  obtain ⟨os', hsuf⟩ := execStores_suffix hstmem
  obtain ⟨r'', hf'', h1, -, -⟩ := execFinal_presence os' hinvst hfr
  rw [hsuf, hf''] at hf'
  injection hf' with hre
  subst hre
  rw [h1 hsome]
  exact hsome

theorem ever_to_end_dec {h : String → String} {profile : CandidateProfile}
    {inv : ResumeInventory} {os : List StepOracle} {s : Store} {j : String} {r' : JobRow}
    (hinv : StoreInv h profile inv s)
    (hever : everInTrace h profile inv os s j (fun x => decide (2 ≤ stageRank x.state)))
    (hf' : findRow j (execFinal h profile inv os s) = some r') :
    r'.decision_data.isSome = true := by
  obtain ⟨st, hstmem, r, hfr, hp⟩ := hever
  have hinvst := execStores_inv hinv hstmem
  have hrinv := hinvst.2 r (findRow_mem hfr)
  have hsome : r.decision_data.isSome = true :=
    recordInv_dec_some hrinv (by simpa using hp)
  obtain ⟨os', hsuf⟩ := execStores_suffix hstmem
  obtain ⟨r'', hf'', -, h2, -⟩ := execFinal_presence os' hinvst hfr
  rw [hsuf, hf''] at hf'
  injection hf' with hre
  subst hre
  rw [h2 hsome]
  exact hsome

theorem ever_to_end_plan {h : String → String} {profile : CandidateProfile}
    {inv : ResumeInventory} {os : List StepOracle} {s : Store} {j : String} {r' : JobRow}
    (hinv : StoreInv h profile inv s)
    (hever : everInTrace h profile inv os s j (fun x => decide (4 ≤ stageRank x.state)))
    (hf' : findRow j (execFinal h profile inv os s) = some r') :
    r'.plan_data.isSome = true := by
  obtain ⟨st, hstmem, r, hfr, hp⟩ := hever
  have hinvst := execStores_inv hinv hstmem
  have hrinv := hinvst.2 r (findRow_mem hfr)
  have hsome : r.plan_data.isSome = true :=
    recordInv_plan_some hrinv (by simpa using hp)
  obtain ⟨os', hsuf⟩ := execStores_suffix hstmem
  obtain ⟨r'', hf'', -, -, h3⟩ := execFinal_presence os' hinvst hfr
  rw [hsuf, hf''] at hf'
  injection hf' with hre
  subst hre
  rw [h3 hsome]
  exact hsome

theorem execStores_chain_mono {h : String → String} {profile : CandidateProfile}
    {inv : ResumeInventory} {s : Store} (hinv : StoreInv h profile inv s)
    (os : List StepOracle) :
    List.Chain'
      (fun a b => ∀ j ra rb, findRow j a = some ra → findRow j b = some rb →
        stageRank ra.state ≤ stageRank rb.state ∨
          (ra.state = .MATERIAL_READY ∧ rb.state = .HUMAN_REVIEW))
      (execStores h profile inv os s) := by
  induction os generalizing s with
  | nil => simp [execStores]
  | cons o os ih =>
    show List.Chain' _ (s :: execStores h profile inv os (stepStore h profile inv o s))
    obtain ⟨t, ht⟩ := execStores_eq_cons h profile inv os (stepStore h profile inv o s)
    rw [ht, List.chain'_cons]
    constructor
    · intro j ra rb hfa hfb
      exact (stepStore_pairRel o hinv hfa hfb).1
    · rw [← ht]
      exact ih (storeInv_stepStore o hinv)

theorem addJobs_fresh {h : String → String} (raws : List RawJob) (s : Store) :
    ∀ r ∈ addJobs h raws s, r ∈ s ∨
      (r.state = .FETCHED ∧ r.normalized_data = none ∧ r.decision_data = none ∧
        r.plan_data = none) := by
  induction raws generalizing s with
  | nil => exact fun r hr => Or.inl hr
  | cons raw rest ih =>
    intro r hr
    show r ∈ s ∨ _
    have hr' : r ∈ addJobs h rest
        (if (s.any fun x => x.job_id = (normalize h raw).job_id) = true then s
         else s ++
          [{ job_id := (normalize h raw).job_id, raw_data := raw, state := .FETCHED }]) := hr
    rcases ih _ r hr' with hmem | hnew
    · by_cases hex : (s.any fun x => x.job_id = (normalize h raw).job_id) = true
      · rw [if_pos hex] at hmem
        exact Or.inl hmem
      · rw [if_neg hex] at hmem
        rcases List.mem_append.mp hmem with hmem | hmem
        · exact Or.inl hmem
        · have hre : r =
              { job_id := (normalize h raw).job_id, raw_data := raw, state := .FETCHED } := by
            simpa using hmem
          subst hre
          exact Or.inr ⟨rfl, rfl, rfl, rfl⟩
    · exact Or.inr hnew

theorem everInTrace_mono {h : String → String} {profile : CandidateProfile}
    {inv : ResumeInventory} {os : List StepOracle} {s : Store} {j : String}
    {p q : JobRow → Bool} (hpq : ∀ x, p x = true → q x = true)
    (hev : everInTrace h profile inv os s j p) : everInTrace h profile inv os s j q := by
  obtain ⟨st, hst, r, hfr, hp⟩ := hev
  exact ⟨st, hst, r, hfr, hpq r hp⟩

/-- C1 (amended): along every trace of add_jobs followed by step() calls with
arbitrary collaborator outcomes, each record's committed stage sequence is
non-decreasing under the ordering FETCHED < NORMALIZED < EVALUATED <
the SKIPPED/HUMAN_REVIEW/PLANNED class < MATERIAL_READY < SUBMITTED, with the
MATERIAL_READY to HUMAN_REVIEW reversion as the only backward move; the
normalized payload is non-null iff the record ever reached NORMALIZED or
later and the decision payload iff it ever reached EVALUATED or later, but
the plan payload is non-null iff the record was ever at MATERIAL_READY or
SUBMITTED: a record sitting at PLANNED has reached PLANNED with a still-null
plan payload, so the claim's payload rule fails for stage PLANNED (see the
counterexample theorem). -/
theorem C1_stage_monotonic_and_payloads (h : String → String)
    (profile : CandidateProfile) (inv : ResumeInventory) (raws : List RawJob)
    (os : List StepOracle) (j : String) (r : JobRow)
    (hf : findRow j (execFinal h profile inv os (addJobs h raws [])) = some r) :
    List.Chain'
      (fun a b => ∀ j ra rb, findRow j a = some ra → findRow j b = some rb →
        stageRank ra.state ≤ stageRank rb.state ∨
          (ra.state = .MATERIAL_READY ∧ rb.state = .HUMAN_REVIEW))
      (execStores h profile inv os (addJobs h raws [])) ∧
    (r.normalized_data.isSome = true ↔
      everInTrace h profile inv os (addJobs h raws []) j
        (fun x => decide (1 ≤ stageRank x.state))) ∧
    (r.decision_data.isSome = true ↔
      everInTrace h profile inv os (addJobs h raws []) j
        (fun x => decide (2 ≤ stageRank x.state))) ∧
    (r.plan_data.isSome = true ↔
      everInTrace h profile inv os (addJobs h raws []) j
        (fun x => decide (4 ≤ stageRank x.state))) := by
  have hinv0 : StoreInv h profile inv (addJobs h raws []) :=
    storeInv_addJobs (storeInv_nil h profile inv) raws
  have hfresh : ∀ r0, findRow j (addJobs h raws []) = some r0 →
      r0.normalized_data = none ∧ r0.decision_data = none ∧ r0.plan_data = none := by
    intro r0 hf0
    rcases addJobs_fresh raws [] r0 (findRow_mem hf0) with hmem | hnew
    · cases hmem
    · exact ⟨hnew.2.1, hnew.2.2.1, hnew.2.2.2⟩
  refine ⟨execStores_chain_mono hinv0 os, ⟨?_, ?_⟩, ⟨?_, ?_⟩, ⟨?_, ?_⟩⟩
  · intro hsome
    rcases execFinal_norm_origin os hinv0 hf hsome with ⟨r0, hf0, hsome0⟩ | hever
    · rw [(hfresh r0 hf0).1] at hsome0
      cases hsome0
    · refine everInTrace_mono ?_ hever
      intro x hx
      simp only [decide_eq_true_eq] at hx ⊢
      rw [hx]
      decide
  · intro hever
    exact ever_to_end_norm hinv0 hever hf
  · intro hsome
    rcases execFinal_dec_origin os hinv0 hf hsome with ⟨r0, hf0, hsome0⟩ | hever
    · rw [(hfresh r0 hf0).2.1] at hsome0
      cases hsome0
    · refine everInTrace_mono ?_ hever
      intro x hx
      simp only [decide_eq_true_eq] at hx ⊢
      rw [hx]
      decide
  · intro hever
    exact ever_to_end_dec hinv0 hever hf
  · intro hsome
    rcases execFinal_plan_origin os hinv0 hf hsome with ⟨r0, hf0, hsome0⟩ | hever
    · rw [(hfresh r0 hf0).2.2] at hsome0
      cases hsome0
    · refine everInTrace_mono ?_ hever
      intro x hx
      simp only [decide_eq_true_eq] at hx ⊢
      rw [hx]
      decide
  · intro hever
    exact ever_to_end_plan hinv0 hever hf

theorem everInTraceB_iff (h : String → String) (profile : CandidateProfile)
    (inv : ResumeInventory) (os : List StepOracle) (s : Store) (jid : String)
    (p : JobRow → Bool) :
    everInTraceB h profile inv os s jid p = true ↔ everInTrace h profile inv os s jid p := by
  unfold everInTraceB everInTrace
  rw [List.any_eq_true]
  constructor
  · rintro ⟨st, hst, hp⟩
    cases hfr : findRow jid st with
    | none => rw [hfr] at hp; cases hp
    | some r =>
      rw [hfr] at hp
      exact ⟨st, hst, r, hfr, by simpa using hp⟩
  · rintro ⟨st, hst, r, hfr, hp⟩
    exact ⟨st, hst, by rw [hfr]; simpa using hp⟩

theorem C1_stage_monotonic_and_payloads_witness :
    List.Chain'
      (fun a b => ∀ j ra rb, findRow j a = some ra → findRow j b = some rb →
        stageRank ra.state ≤ stageRank rb.state ∨
          (ra.state = .MATERIAL_READY ∧ rb.state = .HUMAN_REVIEW))
      (execStores hashId profGood invEx [] (addJobs hashId [rawGood] [])) ∧
    (rowGood0.normalized_data.isSome = true ↔
      everInTrace hashId profGood invEx [] (addJobs hashId [rawGood] []) goodId
        (fun x => decide (1 ≤ stageRank x.state))) := by
  have hf : findRow goodId
      (execFinal hashId profGood invEx [] (addJobs hashId [rawGood] [])) = some rowGood0 := by
    decide
  exact ⟨(C1_stage_monotonic_and_payloads hashId profGood invEx [rawGood] [] goodId
      rowGood0 hf).1,
    (C1_stage_monotonic_and_payloads hashId profGood invEx [rawGood] [] goodId
      rowGood0 hf).2.1⟩

/-- C1 counterexample to the claim as stated: after three successful steps the
rawGood record's committed stage is PLANNED — it has reached stage PLANNED —
yet its plan payload is still NULL; the payload is only written by the
PLANNED to MATERIAL_READY commit. -/
theorem C1_plan_payload_at_planned_counterexample :
    (findRow goodId (execFinal hashId profGood invEx os3 s0Good)).map
      (fun r => (r.state, r.plan_data.isSome)) = some (.PLANNED, false) ∧
    everInTrace hashId profGood invEx os3 s0Good goodId
      (fun x => decide (x.state = .PLANNED)) :=
  ⟨by decide, (everInTraceB_iff hashId profGood invEx os3 s0Good goodId
      (fun x => decide (x.state = .PLANNED))).mp (by decide)⟩

/-- C4: the code evaluated at the failing input.  Two postings are inserted;
the first routes to HUMAN_REVIEW after three steps.  _get_next_row then keeps
returning the HUMAN_REVIEW row (its query only filters SUBMITTED and
SKIPPED), step() commits nothing and returns False — "no pending jobs" —
although the second record is still pending at FETCHED, and run() halts
leaving it unprocessed.  The step loop therefore does not skip a HUMAN_REVIEW
record, and such a record does prevent later pending records from being
processed, contrary to the specification's step contract. -/
theorem C4_human_review_starves_pending :
    s3Two.map (fun r => r.state) = [.HUMAN_REVIEW, .FETCHED] ∧
    (getNextRow s3Two).map (fun r => r.state) = some .HUMAN_REVIEW ∧
    step hashId profHR invEx defaultOracle s3Two = .ok s3Two false ∧
    finalStates (runFuel hashId profHR invEx (fun _ => defaultOracle) 10 s0Two) =
      some [.HUMAN_REVIEW, .FETCHED] ∧
    (findRow secondId s3Two).map (fun r => r.state) = some .FETCHED :=
  ⟨by decide, by decide, by decide, by decide, by decide⟩

/-- C5 (amended): run() repeats step() until it returns False.  With no raising
collaborator and enough fuel, run returns normally; the first unfinished
record of the final store, if any, is at HUMAN_REVIEW, so when no record
rests at HUMAN_REVIEW every record ends at SUBMITTED or SKIPPED.  Concretely a
single well-matching job ends at SUBMITTED and a single hard-filter-failing
job at SKIPPED.  A record routed to HUMAN_REVIEW is however left at that
non-terminal stage after run() returns (see the counterexample), so the
claim's "no record is left at a non-terminal stage" holds only up to
HUMAN_REVIEW parking and the records queued behind it. -/
theorem C5_run_drains_queue (h : String → String) (profile : CandidateProfile)
    (inv : ResumeInventory) (os : Nat → StepOracle) (s : Store) (fuel : Nat)
    (hinv : StoreInv h profile inv s) (hnr : ∀ n, NoRaise (os n))
    (hfuel : storeRank s < fuel) :
    (∃ s', runFuel h profile inv os fuel s = .ok s' ∧
      (getNextRow s' = none ∨ ∃ r, getNextRow s' = some r ∧ r.state = .HUMAN_REVIEW) ∧
      ((∀ r ∈ s', r.state ≠ .HUMAN_REVIEW) →
        ∀ r ∈ s', r.state = .SUBMITTED ∨ r.state = .SKIPPED)) ∧
    finalStates (runFuel hashId profGood invEx (fun _ => defaultOracle) 6 s0Good) =
      some [.SUBMITTED] ∧
    finalStates (runFuel hashId profBoston invEx (fun _ => defaultOracle) 6
      (addJobs hashId [rawBad] [])) = some [.SKIPPED] := by
  refine ⟨?_, by decide, by decide⟩
  obtain ⟨s', hrun, hinv', hend⟩ := runFuel_drains hnr fuel s hinv hfuel
  refine ⟨s', hrun, hend, ?_⟩
  intro hnohr r hr
  rcases hend with hnone | ⟨rr, hgn, hhr⟩
  · exact (isFinished_iff r.state).mp (getNextRow_none hnone r hr)
  · exact absurd hhr (hnohr rr (getNextRow_mem hgn).1)

theorem C5_run_drains_queue_witness :
    StoreInv hashId profGood invEx s0Good ∧ storeRank s0Good < 6 ∧
    finalStates (runFuel hashId profGood invEx (fun _ => defaultOracle) 6 s0Good) =
      some [.SUBMITTED] :=
  ⟨storeInv_addJobs (storeInv_nil hashId profGood invEx) [rawGood], by decide,
    (C5_run_drains_queue hashId profGood invEx (fun _ => defaultOracle) s0Good 6
      (storeInv_addJobs (storeInv_nil hashId profGood invEx) [rawGood])
      (fun _ => ⟨rfl, rfl, rfl, rfl, rfl, rfl, rfl, rfl, rfl, rfl⟩) (by decide)).2.1⟩

/-- C5 counterexample to the claim as stated: a job scoring one half is routed
to HUMAN_REVIEW; run() returns with the record still at HUMAN_REVIEW, which is
not a terminal stage, although no collaborator invocation errored. -/
theorem C5_human_review_left_nonterminal_counterexample :
    finalStates (runFuel hashId profHR invEx (fun _ => defaultOracle) 10
      (addJobs hashId [rawGood] [])) = some [.HUMAN_REVIEW] ∧
    isFinished .HUMAN_REVIEW = false :=
  ⟨by decide, rfl⟩

/-- C7 (amended): a collaborator invocation that raises aborts step() before
its single per-branch commit, leaving the entire store — every record's stage
and payloads — exactly as it was, so the record is retried at the same stage
on the next run().  A submission collaborator that merely returns an
unsuccessful status is however ignored by the source: the step still commits
(see the counterexample). -/
theorem C7_raise_leaves_store_unchanged (h : String → String)
    (profile : CandidateProfile) (inv : ResumeInventory) (o : StepOracle)
    (s s' : Store) (hst : step h profile inv o s = .raised s') : s' = s :=
  step_raised_eq h profile inv o s s' hst

theorem C7_raise_leaves_store_unchanged_witness :
    step hashId profGood invEx { normalizeRaises := true } s0Good = .raised s0Good ∧
    s0Good = s0Good :=
  ⟨by decide, C7_raise_leaves_store_unchanged hashId profGood invEx
    { normalizeRaises := true } s0Good s0Good (by decide)⟩

/-- C7 counterexample to the claim as stated: with the record at
MATERIAL_READY and the form filler returning an unsuccessful status (False),
step() still commits the transition to SUBMITTED and reports work done — the
returned status is received and discarded by the source. -/
theorem C7_fill_status_ignored_counterexample :
    sMRGood.map (fun r => r.state) = [.MATERIAL_READY] ∧
    stepSummary (step hashId profGood invEx { fillFormResult := false } sMRGood) =
      ([.SUBMITTED], true, false) :=
  ⟨by decide, by decide⟩

end JobSpy
